import Mathlib

/-
  Verification development for the RMC car-number roster program
  (source: RMC车号统计.py).

  Python strings are modelled as lists of characters (`Str := List Char`);
  files are modelled as lists of lines (each line without its trailing
  newline, matching `[ln.rstrip("\n") for ln in f]`).  Python's character
  classes are modelled at full Unicode fidelity against CPython 3.11:
  `str.isspace` / `strip()` / `split()` use the complete 29-character
  whitespace set (including U+0085, U+00A0, U+2000–U+200A, U+3000, ...), and
  `ch.isdigit()` uses the complete Unicode digit set (Numeric_Type Digit or
  Decimal: 66 decimal-digit runs of ten code points plus 20 ranges of
  non-decimal digit characters such as `²` and the enclosed digits).  `int()`
  accepts exactly the decimal (Nd) digits among these and raises `ValueError`
  on the rest, so `parse_entry_tokensE` models `parse_entry_tokens` together
  with its exception behaviour (`Except.error ()` is a `ValueError` escaping
  the call); the plain `parse_entry_tokens` and the reader built on it are the
  total no-exception projection of the same code.  Python's insertion-ordered
  `dict` is modelled as an association list with replace-or-append insertion,
  and `sorted(..., key=lambda x: x[0])` as a stable insertion sort by the
  first component; both agree extensionally with the CPython behaviour on the
  observable (sorted) results.
-/

namespace RMC

/-- Python strings, modelled as lists of characters. -/
abbrev Str := List Char

/-- A roster record `(number, unused, name)`, exactly the tuples the source
stores in its tables. -/
abbrev Rec := Nat × Nat × Str

/-- The code points of the 29 characters for which Python's `str.isspace` is
true (equivalently, the separator set of no-argument `str.split` and the strip
set of no-argument `str.strip`), enumerated from CPython 3.11. -/
def pyWsCodes : List Nat :=
  [9, 10, 11, 12, 13, 28, 29, 30, 31, 32, 133, 160, 5760,
   8192, 8193, 8194, 8195, 8196, 8197, 8198, 8199, 8200, 8201, 8202,
   8232, 8233, 8239, 8287, 12288]

/-- Whitespace test of Python's `str.isspace` / `str.strip` / `str.split`. -/
def pyIsSpace (c : Char) : Bool :=
  pyWsCodes.contains c.toNat

/-- First code points of the 66 runs of ten consecutive decimal digit
characters (Unicode general category Nd, the digits `int()` accepts, each run
carrying the values 0–9 in order), enumerated from CPython 3.11. -/
def decDigitStarts : List Nat :=
  [48, 1632, 1776, 1984, 2406, 2534, 2662, 2790, 2918, 3046, 3174, 3302,
   3430, 3558, 3664, 3792, 3872, 4160, 4240, 6112, 6160, 6470, 6608, 6784,
   6800, 6992, 7088, 7232, 7248, 42528, 43216, 43264, 43472, 43504, 43600,
   44016, 65296, 66720, 68912, 69734, 69872, 69942, 70096, 70384, 70736,
   70864, 71248, 71360, 71472, 71904, 72016, 72784, 73040, 73120, 92768,
   92864, 93008, 120782, 120792, 120802, 120812, 120822, 123200, 123632,
   125264, 130032]

/-- Code-point ranges (inclusive) of the remaining 128 characters for which
`ch.isdigit()` is true but `int(ch)` raises `ValueError` (Numeric_Type=Digit
without being decimal: superscripts such as `²`, subscripts, enclosed digits,
...), enumerated from CPython 3.11. -/
def extraDigitRanges : List (Nat × Nat) :=
  [(178, 179), (185, 185), (4969, 4977), (6618, 6618), (8304, 8304),
   (8308, 8313), (8320, 8329), (9312, 9320), (9332, 9340), (9352, 9360),
   (9450, 9450), (9461, 9469), (9471, 9471), (10102, 10110), (10112, 10120),
   (10122, 10130), (68160, 68163), (69216, 69224), (69714, 69722),
   (127232, 127242)]

/-- Decimal value of a code point that is a decimal (Nd) digit, `none`
otherwise. -/
def decDigitValN (v : Nat) : Option Nat :=
  (decDigitStarts.find? (fun s => decide (s ≤ v) && decide (v < s + 10))).map
    (fun s => v - s)

/-- Decimal value of a decimal (Nd) digit character, `none` otherwise: these
are exactly the digit characters `int()` accepts. -/
def decDigitVal (c : Char) : Option Nat :=
  decDigitValN c.toNat

/-- Per-code-point `ch.isdigit()`: a decimal digit or one of the extra
digit-typed characters. -/
def isDigitCharN (v : Nat) : Bool :=
  (decDigitValN v).isSome ||
    extraDigitRanges.any (fun r => decide (r.1 ≤ v) && decide (v ≤ r.2))

/-- Model of per-character `ch.isdigit()` (full Unicode digit set). -/
def isDigitChar (c : Char) : Bool :=
  isDigitCharN c.toNat

/-- Model of Python `tok.isdigit()`: nonempty and all digits. -/
def pyIsDigitStr (s : Str) : Bool :=
  !s.isEmpty && s.all isDigitChar

/-- Decimal value of a digit character as `int()` reads it (0 on characters
`int()` rejects — those are exactly the positions where `pyInt` is `none`
instead, so the fallback value is never observable through `pyInt`). -/
def digitVal (c : Char) : Nat :=
  (decDigitVal c).getD 0

/-- The numeric value `int(tok)` computes when it succeeds; on strings
containing a character `int()` rejects, `pyInt` below is `none` and this
value is not consulted by the faithful parser. -/
def strToNat (s : Str) : Nat :=
  s.foldl (fun a c => a * 10 + digitVal c) 0

/-- `int(tok)` succeeds on `tok` iff `tok` is nonempty and every character is
a decimal (Nd) digit — this is the success condition of `int` on the
`isdigit`-true tokens the program feeds it. -/
def pyIntOk (s : Str) : Bool :=
  s.all (fun c => (decDigitVal c).isSome)

/-- Model of `int(tok)` as the program applies it (to `isdigit`-true tokens):
`some` of the decimal value when `int` succeeds, `none` where it raises
`ValueError` (e.g. on `"²"`, whose sole character is digit-typed but not
decimal). -/
def pyInt (s : Str) : Option Nat :=
  if !s.isEmpty && pyIntOk s then some (strToNat s) else none

/-- Model of Python `s.strip()`. -/
def pyStrip (s : Str) : Str :=
  ((s.dropWhile pyIsSpace).reverse.dropWhile pyIsSpace).reverse

/-- Worker for `pySplitWs`: scan, building the current token reversed. -/
def pySplitWsGo : Str → Str → List Str
  | [], cur => if cur.isEmpty then [] else [cur.reverse]
  | c :: cs, cur =>
    if pyIsSpace c then
      if cur.isEmpty then pySplitWsGo cs [] else cur.reverse :: pySplitWsGo cs []
    else pySplitWsGo cs (c :: cur)

/-- Model of Python `s.split()` (split on whitespace runs, no empty parts). -/
def pySplitWs (s : Str) : List Str :=
  pySplitWsGo s []

/--
`parse_entry_tokens(tokens)` from the source: parse an optional name, a
number and an optional idle count from a whitespace-split token list.
Returns `none` where the source returns `None`.  This is the total
no-exception projection of the call: on the inputs where the source raises
`ValueError` inside `int()` (an `isdigit`-true token containing a
non-decimal digit character, see `parse_entry_tokensE`) it returns the value
computed with `digitVal`'s fallback; every theorem about an input on which
the source can raise is stated over `parse_entry_tokensE` instead.
-/
def parse_entry_tokens : List Str → Option Rec
  | [] => none
  | t0 :: rest =>
    if pyIsDigitStr t0 then
      -- 情况A：首项是数字
      match rest with
      | t1 :: _ => if pyIsDigitStr t1 then some (strToNat t0, strToNat t1, []) else none
      | [] => some (strToNat t0, 0, [])
    else
      -- 情况B：首项是姓名（非数字）
      match rest with
      | t1 :: rest2 =>
        if pyIsDigitStr t1 then
          match rest2 with
          | t2 :: _ =>
            if pyIsDigitStr t2 then some (strToNat t1, strToNat t2, t0)
            else some (strToNat t1, 0, t0)
          | [] => some (strToNat t1, 0, t0)
        else none
      | [] => none

/--
`parse_entry_tokens(tokens)` together with its exception behaviour: the
source calls `int(tok)` only on tokens that passed `tok.isdigit()`, and that
call raises `ValueError` exactly when the token contains a digit-typed
character that is not a decimal digit (`pyInt tok = none`).  `Except.error ()`
marks a `ValueError` escaping the call; `Except.ok` carries the returned
`None`/record.  Branch structure mirrors the source line by line.
-/
def parse_entry_tokensE : List Str → Except Unit (Option Rec)
  | [] => Except.ok none
  | t0 :: rest =>
    if pyIsDigitStr t0 then
      -- 情况A：首项是数字
      match rest with
      | t1 :: _ =>
        if pyIsDigitStr t1 then
          match pyInt t0, pyInt t1 with
          | some n, some u => Except.ok (some (n, u, []))
          | _, _ => Except.error ()
        else Except.ok none
      | [] =>
        match pyInt t0 with
        | some n => Except.ok (some (n, 0, []))
        | none => Except.error ()
    else
      -- 情况B：首项是姓名（非数字）
      match rest with
      | t1 :: rest2 =>
        if pyIsDigitStr t1 then
          match rest2 with
          | t2 :: _ =>
            if pyIsDigitStr t2 then
              match pyInt t1, pyInt t2 with
              | some n, some u => Except.ok (some (n, u, t0))
              | _, _ => Except.error ()
            else
              match pyInt t1 with
              | some n => Except.ok (some (n, 0, t0))
              | none => Except.error ()
          | [] =>
            match pyInt t1 with
            | some n => Except.ok (some (n, 0, t0))
            | none => Except.error ()
        else Except.ok none
      | [] => Except.ok none

/-- Two-character substring test: `hasSub2 p q s` holds iff the two-character
string `p q` occurs contiguously in `s` (model of Python's `"pq" in s` for the
two-character constants `"车号"`, `"C1"`, `"C2"` used by the source). -/
def hasSub2 (p q : Char) : Str → Bool
  | [] => false
  | c :: cs => (c == p && cs.head? == some q) || hasSub2 p q cs

/-- Model of `raw_line[:1].isspace()`. -/
def headIsSpace : Str → Bool
  | [] => false
  | c :: _ => pyIsSpace c

/-- The next two characters are both whitespace (lookahead for the `\s{3,}`
branch of the separator regex). -/
def twoWs : Str → Bool
  | d :: e :: _ => pyIsSpace d && pyIsSpace e
  | _ => false

/-- Scanner state for `sepSplit`: scanning normally, inside a `\t{2,}`
separator run, or inside a `\s{3,}` separator run. -/
inductive SepMode where
  | norm : SepMode
  | tabs : SepMode
  | ws : SepMode
deriving DecidableEq, Repr

/-- Worker for `sepSplit`: scan the line, cutting at each leftmost match of
the separator regex `(?:\t{2,}|\s{3,})` (greedy, tab-run branch first, as the
Python `re` engine resolves it).  `acc` holds the current segment reversed;
inside a separator run `acc` is empty, and on leaving a tab run a fresh
`\s{3,}` separator may start immediately (yielding an empty segment), exactly
as the `re` scan resumes after a match. -/
def sepSplitGo : Str → SepMode → Str → List Str
  | [], _, acc => [acc.reverse]
  | c :: cs, SepMode.tabs, acc =>
    if c == '\t' then sepSplitGo cs SepMode.tabs acc
    else if pyIsSpace c && twoWs cs then acc.reverse :: sepSplitGo cs SepMode.ws []
    else sepSplitGo cs SepMode.norm (c :: acc)
  | c :: cs, SepMode.ws, acc =>
    if pyIsSpace c then sepSplitGo cs SepMode.ws acc
    else sepSplitGo cs SepMode.norm (c :: acc)
  | c :: cs, SepMode.norm, acc =>
    if c == '\t' && cs.head? == some '\t' then
      acc.reverse :: sepSplitGo cs SepMode.tabs []
    else if pyIsSpace c && twoWs cs then
      acc.reverse :: sepSplitGo cs SepMode.ws []
    else sepSplitGo cs SepMode.norm (c :: acc)

/-- Model of `re.split(r'(?:\t{2,}|\s{3,})', raw_line)`. -/
def sepSplit (s : Str) : List Str :=
  sepSplitGo s SepMode.norm []

/-- The two tables `C1` and `C2` of the roster. -/
structure Tables where
  c1 : List Rec
  c2 : List Rec
deriving DecidableEq, Repr

/-- Table keys. -/
inductive TKey where
  | k1 : TKey
  | k2 : TKey
deriving DecidableEq, Repr

/-- Append a record to the chosen table. -/
def addRec (tabs : Tables) (k : TKey) (r : Rec) : Tables :=
  match k with
  | TKey.k1 => ⟨tabs.c1 ++ [r], tabs.c2⟩
  | TKey.k2 => ⟨tabs.c1, tabs.c2 ++ [r]⟩

/-- One line of the side-by-side branch of `read_tables_from_txt`
(source lines 51–91). -/
def readLineSbs (tabs : Tables) (rawLine : Str) : Tables :=
  if pyStrip rawLine = [] then tabs
  else
    let stripped := pyStrip rawLine
    -- 跳过表头/标题行
    if hasSub2 '车' '号' stripped then tabs
    else if hasSub2 'C' '1' stripped && hasSub2 'C' '2' stripped &&
        !(stripped.any isDigitChar) then tabs
    -- 若该行首字符是空白 => 只解析为右列(C2)
    else if headIsSpace rawLine then
      match parse_entry_tokens (pySplitWs stripped) with
      | some r => addRec tabs TKey.k2 r
      | none => tabs
    else
      -- 并排行：用“≥2个Tab 或 ≥3个空格”切成左右两块
      let parts := sepSplit rawLine
      if 2 ≤ parts.length then
        let left := pyStrip (parts.getD 0 [])
        let right := pyStrip (parts.getD 1 [])
        let tabs1 :=
          match parse_entry_tokens (pySplitWs left) with
          | some r => addRec tabs TKey.k1 r
          | none => tabs
        match parse_entry_tokens (pySplitWs right) with
        | some r => addRec tabs1 TKey.k2 r
        | none => tabs1
      else
        -- 无明显分隔符 => 仅左列 C1
        match parse_entry_tokens (pySplitWs stripped) with
        | some r => addRec tabs TKey.k1 r
        | none => tabs

/-- One line of the sequential-block branch of `read_tables_from_txt`
(source lines 94–112); the state carries the current table pointer. -/
def readLineSeq (st : Option TKey × Tables) (ln : Str) : Option TKey × Tables :=
  let line := pyStrip ln
  if line = [] then st
  else if line = [ 'C', '1' ] then (some TKey.k1, st.2)
  else if line = [ 'C', '2' ] then (some TKey.k2, st.2)
  else if List.isPrefixOf [ '车', '号' ] line then st
  else
    match st.1 with
    | some k =>
      match parse_entry_tokens (pySplitWs line) with
      | some r => (st.1, addRec st.2 k r)
      | none => st
    | none => st

/-- Format detection (source line 48): side-by-side iff some non-blank line
contains both `"C1"` and `"C2"`. -/
def sideBySideDetect (lines : List Str) : Bool :=
  lines.any (fun ln => !(pyStrip ln).isEmpty && (hasSub2 'C' '1' ln && hasSub2 'C' '2' ln))

/-- Key order on records: ascending by car number. -/
def keyLE (a b : Rec) : Prop :=
  a.1 ≤ b.1

instance : DecidableRel keyLE :=
  fun a b => Nat.decLe a.1 b.1

instance : IsTotal Rec keyLE :=
  ⟨fun a b => Nat.le_total a.1 b.1⟩

instance : IsTrans Rec keyLE :=
  ⟨fun _ _ _ => Nat.le_trans⟩

/-- Strict key order on records. -/
def keyLT (a b : Rec) : Prop :=
  a.1 < b.1

instance : DecidableRel keyLT :=
  fun a b => Nat.decLt a.1 b.1

instance : IsTrans Rec keyLT :=
  ⟨fun _ _ _ => Nat.lt_trans⟩

/-- Model of `sorted(rows, key=lambda x: x[0])` (stable sort by number). -/
def sortByNum (l : List Rec) : List Rec :=
  List.insertionSort keyLE l

/-- `read_tables_from_txt` over the list of lines of the file. -/
def read_tables_from_txt (lines : List Str) : Tables :=
  let tabs :=
    if sideBySideDetect lines then lines.foldl readLineSbs ⟨[], []⟩
    else (lines.foldl readLineSeq (none, ⟨[], []⟩)).2
  -- 最后按车号排序，保持稳定
  ⟨sortByNum tabs.c1, sortByNum tabs.c2⟩

/-- Association-list model of the Python working dict `num -> (unused, name)`
(insertion-ordered, replace keeps position, fresh key appends). -/
abbrev AList := List (Nat × (Nat × Str))

/-- Dict read `d.get(k)`. -/
def alGet (k : Nat) (d : AList) : Option (Nat × Str) :=
  (d.find? (fun p => p.1 == k)).map Prod.snd

/-- Dict write `d[k] = v`. -/
def alInsert (k : Nat) (v : Nat × Str) (d : AList) : AList :=
  if d.any (fun p => p.1 == k) then d.map (fun p => if p.1 == k then (k, v) else p)
  else d ++ [(k, v)]

/-- Dict deletion `del d[k]` (no-op when absent). -/
def alErase (k : Nat) (d : AList) : AList :=
  d.filter (fun p => !(p.1 == k))

/-- The dict comprehension `{num: (unused, name) for (num, unused, name) in rows}`. -/
def toPairs (rows : List Rec) : AList :=
  rows.foldl (fun d r => alInsert r.1 (r.2.1, r.2.2) d) []

/-- `d.items()` back to record triples. -/
def ofPairs (d : AList) : List Rec :=
  d.map (fun p => (p.1, p.2.1, p.2.2))

/-- One entry of the increment phase (`increment_absent` branch): an observed
number is kept as is, an unobserved one has its idle count bumped and is
dropped once the threshold is reached. -/
def incEntry (new_numbers : List Nat) (max_unused : Nat) (p : Rec) : Option Rec :=
  if new_numbers.contains p.1 then some p
  else if max_unused ≤ p.2.1 + 1 then none
  else some (p.1, (p.2.1 + 1, p.2.2))

/-- One step of the observed-numbers phase: `d[n] = (0, old_name or "")`. -/
def obsStep (d : AList) (n : Nat) : AList :=
  match alGet n d with
  | some (_, old_name) => alInsert n (0, old_name) d
  | none => alInsert n (0, []) d

/--
`update_table_rows(rows, new_numbers, max_unused, increment_absent)` from the
source.  The source's loop over `list(d.keys())` with a deferred `to_delete`
pass touches each key independently, so it is rendered as the equivalent
per-entry `filterMap`; the loop `for n in new_set` only ever touches `d[n]`
and is idempotent per number, so it is rendered as a fold over `new_numbers`.
-/
def update_table_rows (rows : List Rec) (new_numbers : List Nat)
    (max_unused : Nat) (increment_absent : Bool) : List Rec :=
  let d := toPairs rows
  let d1 :=
    if increment_absent then
      -- 未出现的旧号码：unused+1，达到阈值删除
      d.filterMap (incEntry new_numbers max_unused)
    else
      -- 不递增未出现者：完全保持旧 unused 与存在性
      d
  -- 本次出现的号码：置 unused=0；新号则 name=""
  let d2 := new_numbers.foldl obsStep d1
  -- 还原为列表并排序
  sortByNum (ofPairs d2)

/--
`set_single_entry(tables, table_key, car_no, new_unused, name, max_unused)`
restricted to the selected table's rows (the `tables[table_key]` indirection
is a trivial dict lookup in the source).  Note `name or ""` equals `name` for
string `name`.
-/
def set_single_entry (rows : List Rec) (car_no new_unused : Nat) (name : Str)
    (max_unused : Nat) : List Rec :=
  let d := toPairs rows
  let d1 :=
    if max_unused ≤ new_unused then alErase car_no d
    else
      match alGet car_no d with
      | none => alInsert car_no (new_unused, name) d
      | some (_, old_name) =>
        alInsert car_no (new_unused, if name = [] then old_name else name) d
  sortByNum (ofPairs d1)

/-- The table transform of `delete_entry` (source lines 340–343): drop every
record whose number is in `nums`, then sort. -/
def delete_entry (rows : List Rec) (nums : List Nat) : List Rec :=
  sortByNum (rows.filter (fun r => !(nums.contains r.1)))

/-- Decimal digit character for `d < 10`. -/
def digitChar : Nat → Char
  | 0 => '0'
  | 1 => '1'
  | 2 => '2'
  | 3 => '3'
  | 4 => '4'
  | 5 => '5'
  | 6 => '6'
  | 7 => '7'
  | 8 => '8'
  | _ => '9'

/-- Worker for `natToStr`, with fuel for structural recursion. -/
def natToStrGo : Nat → Nat → Str
  | 0, _ => []
  | fuel + 1, n =>
    if n < 10 then [digitChar n]
    else natToStrGo fuel (n / 10) ++ [digitChar (n % 10)]

/-- Model of Python `str(n)` for a natural number (decimal, no sign; the
fuel `n + 1` always suffices). -/
def natToStr (n : Nat) : Str :=
  natToStrGo (n + 1) n

/-- The f-string `f"{name} {n} {u}".strip()` of the writer. -/
def fmtField (r : Rec) : Str :=
  pyStrip (r.2.2 ++ ' ' :: (natToStr r.1 ++ ' ' :: natToStr r.2.1))

/-- One data row of the writer's output (left C1 cell, two tabs, right C2
cell; an exhausted side contributes the empty string). -/
def rowLine (rows1 rows2 : List Rec) (i : Nat) : Str :=
  (match rows1.get? i with
   | some r => fmtField r
   | none => []) ++ '\t' :: '\t' ::
  (match rows2.get? i with
   | some r => fmtField r
   | none => [])

/-- The `",".join(str(num) for num, _, _ in rows)` summary payload. -/
def joinNums : List Rec → Str
  | [] => []
  | [r] => natToStr r.1
  | r :: rest => natToStr r.1 ++ ',' :: joinNums rest

/--
`write_tables_to_txt(output_path, tables)` from the source, as the list of
lines it writes (each `f.write(... + "\n")` contributes one line; the literal
`"\n车号选择范围..."` contributes an empty line followed by the legend line).
-/
def write_tables_to_txt (tabs : Tables) : List Str :=
  let rows1 := sortByNum tabs.c1
  let rows2 := sortByNum tabs.c2
  let maxLen := max rows1.length rows2.length
  [ "C1\t\t\tC2".data, "车手 车号 闲置赛季数\t\t车手 车号 闲置赛季数".data ] ++
    (List.range maxLen).map (rowLine rows1 rows2) ++
    [ [], "车号选择范围：0，2-999未选号码".data,
      "C1 已使用车号: ".data ++ joinNums rows1,
      "C2 已使用车号: ".data ++ joinNums rows2,
      "车号具体使用人见《 车号统计》".data ]

/-! ### Character-level facts -/

theorem ws_not_digit : ∀ v ∈ pyWsCodes, isDigitCharN v = false := by decide

theorem digit_not_space {c : Char} (h : isDigitChar c = true) : pyIsSpace c = false := by
  cases hsp : pyIsSpace c
  · rfl
  · have hv : c.toNat ∈ pyWsCodes :=
      List.elem_iff.mp (show pyWsCodes.contains c.toNat = true from hsp)
    rw [show isDigitChar c = isDigitCharN c.toNat from rfl, ws_not_digit c.toNat hv] at h
    exact Bool.noConfusion h

theorem digit_ne {c x : Char} (h : isDigitChar c = true) (hx : isDigitChar x = false) :
    c ≠ x := by
  intro he
  subst he
  rw [h] at hx
  exact absurd hx (by decide)

/-! ### `natToStr` facts -/

theorem digitChar_isDigit {d : Nat} (h : d < 10) : isDigitChar (digitChar d) = true := by
  interval_cases d <;> decide

theorem digitChar_toNat {d : Nat} (h : d < 10) : (digitChar d).toNat - 48 = d := by
  interval_cases d <;> decide

theorem digitVal_digitChar {d : Nat} (h : d < 10) : digitVal (digitChar d) = d := by
  interval_cases d <;> decide

theorem digitChar_decOk {d : Nat} (h : d < 10) :
    (decDigitVal (digitChar d)).isSome = true := by
  interval_cases d <;> decide

theorem natToStrGo_ne_nil {fuel n : Nat} (h : n < fuel) : natToStrGo fuel n ≠ [] := by
  cases fuel with
  | zero => omega
  | succ f =>
    rw [natToStrGo]
    split <;> simp

theorem natToStr_ne_nil (n : Nat) : natToStr n ≠ [] :=
  natToStrGo_ne_nil (Nat.lt_succ_self n)

theorem natToStrGo_all_digit : ∀ (fuel : Nat) {n : Nat}, n < fuel →
    ∀ c ∈ natToStrGo fuel n, isDigitChar c = true := by
  intro fuel
  induction fuel with
  | zero =>
    intro n h
    omega
  | succ f ih =>
    intro n h c hc
    rw [natToStrGo] at hc
    split at hc
    · rcases List.mem_singleton.mp hc with rfl
      rename_i h10
      exact digitChar_isDigit h10
    · rename_i h10
      have hdiv : n / 10 < n := Nat.div_lt_self (by omega) (by omega)
      rcases List.mem_append.mp hc with h1 | h1
      · exact ih (by omega) c h1
      · rcases List.mem_singleton.mp h1 with rfl
        exact digitChar_isDigit (Nat.mod_lt _ (by omega))

theorem natToStr_all_digit (n : Nat) : ∀ c ∈ natToStr n, isDigitChar c = true :=
  natToStrGo_all_digit (n + 1) (Nat.lt_succ_self n)

theorem strToNat_append (s t : Str) :
    strToNat (s ++ t) = t.foldl (fun a c => a * 10 + digitVal c) (strToNat s) := by
  simp [strToNat]

theorem strToNat_natToStrGo : ∀ (fuel : Nat) {n : Nat}, n < fuel →
    strToNat (natToStrGo fuel n) = n := by
  intro fuel
  induction fuel with
  | zero =>
    intro n h
    omega
  | succ f ih =>
    intro n h
    rw [natToStrGo]
    split
    · rename_i h10
      simp [strToNat, List.foldl, digitVal_digitChar h10]
    · rename_i h10
      have hdiv : n / 10 < n := Nat.div_lt_self (by omega) (by omega)
      rw [strToNat_append, ih (by omega)]
      simp only [List.foldl]
      rw [digitVal_digitChar (Nat.mod_lt _ (by omega))]
      omega

theorem strToNat_natToStr (n : Nat) : strToNat (natToStr n) = n :=
  strToNat_natToStrGo (n + 1) (Nat.lt_succ_self n)

theorem pyIsDigitStr_natToStr (n : Nat) : pyIsDigitStr (natToStr n) = true := by
  have h1 := natToStr_ne_nil n
  have h2 := natToStr_all_digit n
  simp only [pyIsDigitStr, Bool.and_eq_true, Bool.not_eq_true', List.isEmpty_eq_false,
    List.all_eq_true]
  exact ⟨h1, h2⟩

theorem natToStrGo_all_dec : ∀ (fuel : Nat) {n : Nat}, n < fuel →
    ∀ c ∈ natToStrGo fuel n, (decDigitVal c).isSome = true := by
  intro fuel
  induction fuel with
  | zero =>
    intro n h
    omega
  | succ f ih =>
    intro n h c hc
    rw [natToStrGo] at hc
    split at hc
    · rcases List.mem_singleton.mp hc with rfl
      rename_i h10
      exact digitChar_decOk h10
    · rename_i h10
      have hdiv : n / 10 < n := Nat.div_lt_self (by omega) (by omega)
      rcases List.mem_append.mp hc with h1 | h1
      · exact ih (by omega) c h1
      · rcases List.mem_singleton.mp h1 with rfl
        exact digitChar_decOk (Nat.mod_lt _ (by omega))

theorem pyIntOk_natToStr (n : Nat) : pyIntOk (natToStr n) = true := by
  simp only [pyIntOk, List.all_eq_true]
  exact natToStrGo_all_dec (n + 1) (Nat.lt_succ_self n)

theorem pyInt_natToStr (n : Nat) : pyInt (natToStr n) = some n := by
  have he : (natToStr n).isEmpty = false := by
    rw [List.isEmpty_eq_false]
    exact natToStr_ne_nil n
  rw [pyInt, he, pyIntOk_natToStr]
  simp [strToNat_natToStr]

theorem pyInt_of_ok {t : Str} (hd : pyIsDigitStr t = true) (hk : pyIntOk t = true) :
    pyInt t = some (strToNat t) := by
  simp only [pyIsDigitStr, Bool.and_eq_true, Bool.not_eq_true'] at hd
  rw [pyInt, hd.1, hk]
  rfl

/-! ### `pyStrip` facts -/

theorem pyStrip_nil : pyStrip [] = [] := rfl

theorem pyStrip_cons_space {c : Char} (h : pyIsSpace c = true) (s : Str) :
    pyStrip (c :: s) = pyStrip s := by
  simp [pyStrip, List.dropWhile_cons_of_pos h]

theorem pyStrip_eq_self {s : Str}
    (hh : ∀ c, s.head? = some c → pyIsSpace c = false)
    (hl : ∀ c, s.getLast? = some c → pyIsSpace c = false) :
    pyStrip s = s := by
  cases s with
  | nil => rfl
  | cons a t =>
    have ha : pyIsSpace a = false := hh a rfl
    unfold pyStrip
    rw [List.dropWhile_cons_of_neg (by simp [ha])]
    cases hrev : (a :: t).reverse with
    | nil => exact absurd (congrArg List.length hrev) (by simp)
    | cons b u =>
      have hb : (a :: t).getLast? = some b := by
        rw [← List.head?_reverse, hrev]
        rfl
      rw [List.dropWhile_cons_of_neg (by simp [hl b hb]), ← hrev, List.reverse_reverse]

theorem pyStrip_append_ws {s t : Str}
    (hh : ∀ c, s.head? = some c → pyIsSpace c = false)
    (ht : ∀ c ∈ t, pyIsSpace c = true) :
    pyStrip (s ++ t) = pyStrip s := by
  cases s with
  | nil =>
    simp only [List.nil_append]
    have : t.dropWhile pyIsSpace = [] := List.dropWhile_eq_nil_iff.mpr ht
    simp [pyStrip, this]
  | cons a s' =>
    have ha : pyIsSpace a = false := hh a rfl
    have hta : ∀ c ∈ t.reverse, pyIsSpace c = true := fun c hc => ht c (List.mem_reverse.mp hc)
    unfold pyStrip
    simp only [List.cons_append]
    rw [List.dropWhile_cons_of_neg (by simp [ha]), List.dropWhile_cons_of_neg (by simp [ha])]
    simp only [List.reverse_cons, List.reverse_append, List.append_assoc]
    rw [List.dropWhile_append_of_pos hta]

/-! ### `pySplitWs` facts -/

theorem pySplitWsGo_consume {tok : Str} (h : ∀ c ∈ tok, pyIsSpace c = false) :
    ∀ (rest cur : Str),
      pySplitWsGo (tok ++ rest) cur = pySplitWsGo rest (tok.reverse ++ cur) := by
  induction tok with
  | nil => simp
  | cons c t ih =>
    intro rest cur
    rw [List.cons_append, pySplitWsGo, if_neg (by simp [h c (by simp)])]
    rw [ih (fun d hd => h d (by simp [hd])) rest (c :: cur)]
    simp

theorem pySplitWs_nil_eq : pySplitWs [] = [] := rfl

theorem pySplitWs_cons_space {c : Char} (h : pyIsSpace c = true) (s : Str) :
    pySplitWs (c :: s) = pySplitWs s := by
  unfold pySplitWs
  rw [pySplitWsGo, if_pos h]
  simp

theorem pySplitWs_tok_append {tok rest : Str} (h0 : tok ≠ [])
    (h1 : ∀ c ∈ tok, pyIsSpace c = false) :
    pySplitWs (tok ++ ' ' :: rest) = tok :: pySplitWs rest := by
  unfold pySplitWs
  rw [pySplitWsGo_consume h1]
  rw [pySplitWsGo, if_pos (by decide), if_neg (by simp [h0])]
  simp

theorem pySplitWs_tok {tok : Str} (h0 : tok ≠ [])
    (h1 : ∀ c ∈ tok, pyIsSpace c = false) :
    pySplitWs tok = [tok] := by
  unfold pySplitWs
  conv_lhs => rw [show tok = tok ++ [] from (List.append_nil tok).symm]
  rw [pySplitWsGo_consume h1]
  rw [pySplitWsGo, if_neg (by simp [h0])]
  simp

/-! ### `sepSplitGo` facts -/

theorem beq_tab_false {c : Char} (h : pyIsSpace c = false) : (c == '\t') = false := by
  by_contra hx
  rw [Bool.not_eq_false, beq_iff_eq] at hx
  subst hx
  exact absurd h (by decide)

theorem sepSplitGo_nil (m : SepMode) (acc : Str) : sepSplitGo [] m acc = [acc.reverse] := by
  cases m <;> rfl

theorem sepSplitGo_char {c : Char} (h : pyIsSpace c = false) (cs acc : Str) :
    sepSplitGo (c :: cs) SepMode.norm acc = sepSplitGo cs SepMode.norm (c :: acc) := by
  rw [sepSplitGo, if_neg (by simp [beq_tab_false h]), if_neg (by simp [h])]

theorem sepSplitGo_exit_tabs {rest : Str}
    (h : ∀ c, rest.head? = some c → pyIsSpace c = false) :
    sepSplitGo rest SepMode.tabs [] = sepSplitGo rest SepMode.norm [] := by
  cases rest with
  | nil => rfl
  | cons d t =>
    have hd : pyIsSpace d = false := h d rfl
    have hL : sepSplitGo (d :: t) SepMode.tabs [] = sepSplitGo t SepMode.norm [ d ] := by
      rw [sepSplitGo, if_neg (by simp [beq_tab_false hd]), if_neg (by simp [hd])]
    have hR : sepSplitGo (d :: t) SepMode.norm [] = sepSplitGo t SepMode.norm [ d ] := by
      rw [sepSplitGo, if_neg (by simp [beq_tab_false hd]), if_neg (by simp [hd])]
    rw [hL, hR]

theorem sepSplitGo_tabs {rest : Str}
    (h : ∀ c, rest.head? = some c → pyIsSpace c = false) (acc : Str) :
    sepSplitGo ('\t' :: '\t' :: rest) SepMode.norm acc =
      acc.reverse :: sepSplitGo rest SepMode.norm [] := by
  rw [sepSplitGo, if_pos (by simp)]
  congr 1
  rw [sepSplitGo, if_pos (by simp)]
  exact sepSplitGo_exit_tabs h

/-! ### `hasSub2` facts -/

theorem hasSub2_nil (p q : Char) : hasSub2 p q [] = false := rfl

theorem hasSub2_cons_of_ne {p c : Char} (h : (c == p) = false) (q : Char) (s : Str) :
    hasSub2 p q (c :: s) = hasSub2 p q s := by
  rw [hasSub2, h]
  simp

theorem hasSub2_all_ne {p : Char} {s : Str} (h : ∀ c ∈ s, (c == p) = false) (q : Char) :
    hasSub2 p q s = false := by
  induction s with
  | nil => rfl
  | cons c t ih =>
    rw [hasSub2_cons_of_ne (h c (by simp)) q]
    exact ih (fun d hd => h d (by simp [hd]))

theorem hasSub2_append_left {p q : Char} {a : Str} (h : hasSub2 p q a = true) (b : Str) :
    hasSub2 p q (a ++ b) = true := by
  induction a with
  | nil => exact absurd h (by simp [hasSub2_nil])
  | cons c t ih =>
    rw [List.cons_append, hasSub2]
    rw [hasSub2] at h
    rcases Bool.or_eq_true_iff.mp h with h1 | h1
    · rcases Bool.and_eq_true_iff.mp h1 with ⟨hc, hh⟩
      cases t with
      | nil => simp at hh
      | cons d u =>
        simp only [List.head?] at hh
        apply Bool.or_eq_true_iff.mpr
        left
        simp only [List.cons_append, List.head?]
        exact Bool.and_eq_true_iff.mpr ⟨hc, hh⟩
    · exact Bool.or_eq_true_iff.mpr (Or.inr (ih h1))

theorem hasSub2_append_false {p q : Char} {a b : Str} (ha : hasSub2 p q a = false)
    (hb : hasSub2 p q b = false) (hq : (b.head? == some q) = false) :
    hasSub2 p q (a ++ b) = false := by
  induction a with
  | nil => simpa
  | cons c t ih =>
    rw [hasSub2] at ha
    rcases Bool.or_eq_false_iff.mp ha with ⟨h1, h2⟩
    rw [List.cons_append, hasSub2]
    apply Bool.or_eq_false_iff.mpr
    refine ⟨?_, ih h2⟩
    cases t with
    | nil =>
      simp only [List.nil_append]
      cases hcp : (c == p) <;> simp [hq]
    | cons d u => simpa using h1

/-! ### The written cell text and its parsing properties -/

/-- Names the Fixed-Layout Writer can serialise losslessly: no whitespace
characters, not itself a pure digit string, and not containing the header
marker `车号`. -/
def goodNameB (nm : Str) : Bool :=
  nm.all (fun c => !pyIsSpace c) && !pyIsDigitStr nm && !hasSub2 '车' '号' nm

/-- The explicit text of a written (nonempty) cell: `name number idleCount`
with the empty name dropped. -/
def plainField (n u : Nat) (nm : Str) : Str :=
  match nm with
  | [] => natToStr n ++ ' ' :: natToStr u
  | _ => nm ++ ' ' :: (natToStr n ++ ' ' :: natToStr u)

theorem natToStr_cons (n : Nat) :
    ∃ d t, natToStr n = d :: t ∧ isDigitChar d = true ∧ ∀ c ∈ t, isDigitChar c = true := by
  cases hn : natToStr n with
  | nil => exact absurd hn (natToStr_ne_nil n)
  | cons d t =>
    refine ⟨d, t, rfl, ?_, ?_⟩
    · exact natToStr_all_digit n d (by rw [hn]; simp)
    · intro c hc
      exact natToStr_all_digit n c (by rw [hn]; simp [hc])

theorem natToStr_not_space (n : Nat) : ∀ c ∈ natToStr n, pyIsSpace c = false :=
  fun c hc => digit_not_space (natToStr_all_digit n c hc)

theorem mem_of_getLast?_eq {l : Str} {c : Char} (h : l.getLast? = some c) : c ∈ l := by
  rw [← List.head?_reverse] at h
  exact List.mem_reverse.mp (List.mem_of_mem_head? (by rw [h]; rfl))

theorem getLast?_append_right {s t : Str} (h : t ≠ []) : (s ++ t).getLast? = t.getLast? := by
  rw [List.getLast?_append]
  cases ht : t.getLast? with
  | none => exact absurd (List.getLast?_eq_none_iff.mp ht) h
  | some b => rfl

theorem goodName_not_space {nm : Str} (h : goodNameB nm = true) :
    ∀ c ∈ nm, pyIsSpace c = false := by
  simp only [goodNameB, Bool.and_eq_true, List.all_eq_true, Bool.not_eq_true'] at h
  intro c hc
  simpa using h.1.1 c hc

theorem goodName_not_digitStr {nm : Str} (h : goodNameB nm = true) :
    pyIsDigitStr nm = false := by
  simp only [goodNameB, Bool.and_eq_true, Bool.not_eq_true'] at h
  exact h.1.2

theorem goodName_noCheHao {nm : Str} (h : goodNameB nm = true) :
    hasSub2 '车' '号' nm = false := by
  simp only [goodNameB, Bool.and_eq_true, Bool.not_eq_true'] at h
  exact h.2

theorem plainField_head {n u : Nat} {nm : Str} (hg : goodNameB nm = true) :
    ∀ c, (plainField n u nm).head? = some c → pyIsSpace c = false := by
  intro c hc
  cases nm with
  | nil =>
    obtain ⟨d, t, hd, hdig, _⟩ := natToStr_cons n
    rw [show plainField n u [] = natToStr n ++ ' ' :: natToStr u from rfl, hd] at hc
    simp only [List.cons_append, List.head?_cons, Option.some.injEq] at hc
    subst hc
    exact digit_not_space hdig
  | cons a t =>
    rw [show plainField n u (a :: t) =
        (a :: t) ++ ' ' :: (natToStr n ++ ' ' :: natToStr u) from rfl] at hc
    simp only [List.cons_append, List.head?_cons, Option.some.injEq] at hc
    subst hc
    exact goodName_not_space hg a (by simp)

theorem plainField_last (n u : Nat) (nm : Str) :
    ∀ c, (plainField n u nm).getLast? = some c → pyIsSpace c = false := by
  intro c hc
  have hu : (natToStr u).getLast? = some c → pyIsSpace c = false := fun h =>
    digit_not_space (natToStr_all_digit u c (mem_of_getLast?_eq h))
  cases nm with
  | nil =>
    rw [show plainField n u [] = natToStr n ++ ' ' :: natToStr u from rfl] at hc
    rw [getLast?_append_right (by simp),
      show (' ' :: natToStr u) = [ ' ' ] ++ natToStr u from rfl,
      getLast?_append_right (natToStr_ne_nil u)] at hc
    exact hu hc
  | cons a t =>
    rw [show plainField n u (a :: t) =
        (a :: t) ++ ' ' :: (natToStr n ++ ' ' :: natToStr u) from rfl] at hc
    rw [getLast?_append_right (by simp),
      show (' ' :: (natToStr n ++ ' ' :: natToStr u)) =
        [ ' ' ] ++ (natToStr n ++ ' ' :: natToStr u) from rfl,
      getLast?_append_right (by simp), getLast?_append_right (by simp),
      show (' ' :: natToStr u) = [ ' ' ] ++ natToStr u from rfl,
      getLast?_append_right (natToStr_ne_nil u)] at hc
    exact hu hc

theorem plainField_ne_nil (n u : Nat) (nm : Str) : plainField n u nm ≠ [] := by
  cases nm with
  | nil =>
    show natToStr n ++ ' ' :: natToStr u ≠ []
    simp
  | cons a t => simp [plainField]

theorem fmtField_eq_plain {n u : Nat} {nm : Str} (hg : goodNameB nm = true) :
    fmtField (n, u, nm) = plainField n u nm := by
  cases nm with
  | nil =>
    show pyStrip ([] ++ ' ' :: (natToStr n ++ ' ' :: natToStr u)) = _
    rw [List.nil_append, pyStrip_cons_space (by decide)]
    exact pyStrip_eq_self (@plainField_head n u [] (by decide)) (plainField_last n u [])
  | cons a t =>
    show pyStrip ((a :: t) ++ ' ' :: (natToStr n ++ ' ' :: natToStr u)) = _
    exact pyStrip_eq_self (@plainField_head n u (a :: t) hg) (plainField_last n u (a :: t))

theorem plainField_strip {n u : Nat} {nm : Str} (hg : goodNameB nm = true) :
    pyStrip (plainField n u nm) = plainField n u nm :=
  pyStrip_eq_self (plainField_head hg) (plainField_last n u nm)

theorem parse_digit_digit {t0 t1 : Str} (h0 : pyIsDigitStr t0 = true)
    (h1 : pyIsDigitStr t1 = true) (rest : List Str) :
    parse_entry_tokens (t0 :: t1 :: rest) = some (strToNat t0, strToNat t1, []) := by
  simp [parse_entry_tokens, h0, h1]

theorem parse_name_digit_digit {t0 t1 t2 : Str} (h0 : pyIsDigitStr t0 = false)
    (h1 : pyIsDigitStr t1 = true) (h2 : pyIsDigitStr t2 = true) (rest : List Str) :
    parse_entry_tokens (t0 :: t1 :: t2 :: rest) = some (strToNat t1, strToNat t2, t0) := by
  simp [parse_entry_tokens, h0, h1, h2]

theorem parse_digit_digitE {t0 t1 : Str} (h0 : pyIsDigitStr t0 = true)
    (h1 : pyIsDigitStr t1 = true) {n u : Nat} (hi0 : pyInt t0 = some n)
    (hi1 : pyInt t1 = some u) (rest : List Str) :
    parse_entry_tokensE (t0 :: t1 :: rest) = Except.ok (some (n, u, [])) := by
  simp [parse_entry_tokensE, h0, h1, hi0, hi1]

theorem parse_name_digit_digitE {t0 t1 t2 : Str} (h0 : pyIsDigitStr t0 = false)
    (h1 : pyIsDigitStr t1 = true) (h2 : pyIsDigitStr t2 = true) {n u : Nat}
    (hi1 : pyInt t1 = some n) (hi2 : pyInt t2 = some u) (rest : List Str) :
    parse_entry_tokensE (t0 :: t1 :: t2 :: rest) = Except.ok (some (n, u, t0)) := by
  simp [parse_entry_tokensE, h0, h1, h2, hi1, hi2]

theorem plainField_tokens {n u : Nat} {nm : Str} (hg : goodNameB nm = true) :
    pySplitWs (plainField n u nm) =
      match nm with
      | [] => [ natToStr n, natToStr u ]
      | _ => [ nm, natToStr n, natToStr u ] := by
  cases nm with
  | nil =>
    show pySplitWs (natToStr n ++ ' ' :: natToStr u) = _
    rw [pySplitWs_tok_append (natToStr_ne_nil n) (natToStr_not_space n),
      pySplitWs_tok (natToStr_ne_nil u) (natToStr_not_space u)]
  | cons a t =>
    show pySplitWs ((a :: t) ++ ' ' :: (natToStr n ++ ' ' :: natToStr u)) = _
    rw [pySplitWs_tok_append (by simp) (goodName_not_space hg),
      pySplitWs_tok_append (natToStr_ne_nil n) (natToStr_not_space n),
      pySplitWs_tok (natToStr_ne_nil u) (natToStr_not_space u)]

theorem plainField_parse {n u : Nat} {nm : Str} (hg : goodNameB nm = true) :
    parse_entry_tokens (pySplitWs (plainField n u nm)) = some (n, u, nm) := by
  cases nm with
  | nil =>
    rw [show pySplitWs (plainField n u []) = [ natToStr n, natToStr u ] from
      plainField_tokens hg]
    rw [parse_digit_digit (pyIsDigitStr_natToStr n) (pyIsDigitStr_natToStr u)]
    rw [strToNat_natToStr, strToNat_natToStr]
  | cons a t =>
    rw [show pySplitWs (plainField n u (a :: t)) =
        [ a :: t, natToStr n, natToStr u ] from plainField_tokens hg]
    rw [parse_name_digit_digit (goodName_not_digitStr hg) (pyIsDigitStr_natToStr n)
      (pyIsDigitStr_natToStr u)]
    rw [strToNat_natToStr, strToNat_natToStr]

/-- A serialisable cell re-parses to exactly its record with no exception:
the name token fails `isdigit` (so `int` is never applied to it) and the two
numeric tokens are ASCII decimal, on which `int` succeeds. -/
theorem plainField_parseE {n u : Nat} {nm : Str} (hg : goodNameB nm = true) :
    parse_entry_tokensE (pySplitWs (plainField n u nm)) =
      Except.ok (some (n, u, nm)) := by
  cases nm with
  | nil =>
    rw [show pySplitWs (plainField n u []) = [ natToStr n, natToStr u ] from
      plainField_tokens hg]
    exact parse_digit_digitE (pyIsDigitStr_natToStr n) (pyIsDigitStr_natToStr u)
      (pyInt_natToStr n) (pyInt_natToStr u) []
  | cons a t =>
    rw [show pySplitWs (plainField n u (a :: t)) =
        [ a :: t, natToStr n, natToStr u ] from plainField_tokens hg]
    exact parse_name_digit_digitE (goodName_not_digitStr hg) (pyIsDigitStr_natToStr n)
      (pyIsDigitStr_natToStr u) (pyInt_natToStr n) (pyInt_natToStr u) []

theorem fmtField_parseE {n u : Nat} {nm : Str} (hg : goodNameB nm = true) :
    parse_entry_tokensE (pySplitWs (fmtField (n, u, nm))) =
      Except.ok (some (n, u, nm)) := by
  rw [fmtField_eq_plain hg]
  exact plainField_parseE hg

theorem hasSub2_natToStr (n : Nat) : hasSub2 '车' '号' (natToStr n) = false := by
  apply hasSub2_all_ne
  intro c hc
  have := natToStr_all_digit n c hc
  exact beq_eq_false_iff_ne.mpr (digit_ne this (by decide))

theorem cheHao_cons_space (s : Str) : hasSub2 '车' '号' (' ' :: s) = hasSub2 '车' '号' s :=
  hasSub2_cons_of_ne (by decide) '号' s

theorem cheHao_cons_tab (s : Str) : hasSub2 '车' '号' ('\t' :: s) = hasSub2 '车' '号' s :=
  hasSub2_cons_of_ne (by decide) '号' s

theorem plainField_noCheHao {n u : Nat} {nm : Str} (hg : goodNameB nm = true) :
    hasSub2 '车' '号' (plainField n u nm) = false := by
  have hsp : ((' ' :: natToStr u).head? == some '号') = false := by
    rw [List.head?_cons]
    decide
  have hinner : hasSub2 '车' '号' (natToStr n ++ ' ' :: natToStr u) = false := by
    apply hasSub2_append_false (hasSub2_natToStr n) _ hsp
    rw [cheHao_cons_space]
    exact hasSub2_natToStr u
  cases nm with
  | nil => exact hinner
  | cons a t =>
    show hasSub2 '车' '号' ((a :: t) ++ ' ' :: (natToStr n ++ ' ' :: natToStr u)) = false
    apply hasSub2_append_false (goodName_noCheHao hg) _ (by rw [List.head?_cons]; decide)
    rw [cheHao_cons_space]
    exact hinner

theorem plainField_anyDigit (n u : Nat) (nm : Str) :
    (plainField n u nm).any isDigitChar = true := by
  obtain ⟨d, t, hd, hdig, _⟩ := natToStr_cons n
  cases nm with
  | nil =>
    show (natToStr n ++ ' ' :: natToStr u).any isDigitChar = true
    rw [List.any_append, hd]
    simp [hdig]
  | cons a t2 =>
    show ((a :: t2) ++ ' ' :: (natToStr n ++ ' ' :: natToStr u)).any isDigitChar = true
    simp [hd, hdig]

/-! ### Separator-free fields and their behaviour under `sepSplitGo` -/

/-- A string the separator regex never fires inside: no tab, no two adjacent
whitespace characters, and (when nonempty) not ending in whitespace. -/
def fieldOkB : Str → Bool
  | [] => true
  | [c] => !pyIsSpace c
  | c :: d :: t => !(c == '\t') && (!pyIsSpace c || !pyIsSpace d) && fieldOkB (d :: t)

theorem twoWs_cons_false {d : Char} (hd : pyIsSpace d = false) (x : Str) :
    twoWs (d :: x) = false := by
  cases x <;> simp [twoWs, hd]

theorem fieldOk_sg {s : Str} (h : fieldOkB s = true) :
    ∀ rest acc, sepSplitGo (s ++ rest) SepMode.norm acc =
      sepSplitGo rest SepMode.norm (s.reverse ++ acc) := by
  induction s with
  | nil => simp
  | cons c cs ih =>
    intro rest acc
    cases cs with
    | nil =>
      have hc : pyIsSpace c = false := by simpa [fieldOkB] using h
      rw [List.cons_append, List.nil_append, sepSplitGo_char hc]
      simp
    | cons d t =>
      have h3 : fieldOkB (d :: t) = true := by
        simp only [fieldOkB, Bool.and_eq_true] at h
        exact h.2
      by_cases hc : pyIsSpace c = false
      · rw [List.cons_append, sepSplitGo_char hc, ih h3 rest (c :: acc)]
        simp
      · rw [Bool.not_eq_false] at hc
        have hct : (c == '\t') = false := by
          simp only [fieldOkB, Bool.and_eq_true, Bool.not_eq_true'] at h
          exact h.1.1
        have hd : pyIsSpace d = false := by
          simp only [fieldOkB, Bool.and_eq_true, Bool.or_eq_true, Bool.not_eq_true'] at h
          rcases h.1.2 with h1 | h1
          · rw [h1] at hc
            exact absurd hc (by decide)
          · exact h1
        rw [List.cons_append, List.cons_append]
        rw [sepSplitGo, if_neg (by simp [hct]),
          if_neg (by rw [← List.cons_append]; simp [twoWs_cons_false hd])]
        rw [← List.cons_append, ih h3 rest (c :: acc)]
        simp

theorem fieldOk_tok {tok : Str} (h : ∀ c ∈ tok, pyIsSpace c = false) :
    fieldOkB tok = true := by
  induction tok with
  | nil => rfl
  | cons c t ih =>
    cases t with
    | nil => simp [fieldOkB, h c (by simp)]
    | cons d t2 =>
      have htail := ih (fun x hx => h x (by simp [hx]))
      have hc := h c (by simp)
      have hct : (c == '\t') = false := by
        by_contra hx
        rw [Bool.not_eq_false, beq_iff_eq] at hx
        subst hx
        exact absurd hc (by decide)
      simp only [fieldOkB, Bool.and_eq_true]
      exact ⟨⟨by simp [hct], by simp [hc]⟩, htail⟩

theorem fieldOk_tok_space {tok rest : Str} (htok : ∀ c ∈ tok, pyIsSpace c = false)
    (hrest : fieldOkB rest = true) (hne : rest ≠ [])
    (hhead : ∀ c, rest.head? = some c → pyIsSpace c = false) :
    fieldOkB (tok ++ ' ' :: rest) = true := by
  induction tok with
  | nil =>
    cases rest with
    | nil => exact absurd rfl hne
    | cons d t =>
      have hd : pyIsSpace d = false := hhead d rfl
      simp only [List.nil_append, fieldOkB, Bool.and_eq_true]
      exact ⟨⟨by decide, by simp [hd]⟩, hrest⟩
  | cons c t ih =>
    have hc : pyIsSpace c = false := htok c (by simp)
    have hct : (c == '\t') = false := by
      by_contra hx
      rw [Bool.not_eq_false, beq_iff_eq] at hx
      subst hx
      exact absurd hc (by decide)
    have htail := ih (fun x hx => htok x (by simp [hx]))
    cases t with
    | nil =>
      rw [List.cons_append, List.nil_append]
      rw [List.nil_append] at htail
      simp only [fieldOkB, Bool.and_eq_true]
      exact ⟨⟨by simp [hct], by simp [hc]⟩, htail⟩
    | cons e t2 =>
      rw [List.cons_append]
      rw [List.cons_append] at htail
      simp only [fieldOkB, Bool.and_eq_true]
      exact ⟨⟨by simp [hct], by simp [hc]⟩, htail⟩

theorem natToStr_head_not_space (n : Nat) :
    ∀ c, (natToStr n).head? = some c → pyIsSpace c = false := by
  intro c hc
  exact digit_not_space (natToStr_all_digit n c (List.mem_of_mem_head? (by rw [hc]; rfl)))

theorem plainField_fieldOk {n u : Nat} {nm : Str} (hg : goodNameB nm = true) :
    fieldOkB (plainField n u nm) = true := by
  have hinner : fieldOkB (natToStr n ++ ' ' :: natToStr u) = true :=
    fieldOk_tok_space (natToStr_not_space n) (fieldOk_tok (natToStr_not_space u))
      (natToStr_ne_nil u) (natToStr_head_not_space u)
  cases nm with
  | nil => exact hinner
  | cons a t =>
    show fieldOkB ((a :: t) ++ ' ' :: (natToStr n ++ ' ' :: natToStr u)) = true
    refine fieldOk_tok_space (goodName_not_space hg) hinner (by simp) ?_
    intro c hc
    obtain ⟨d, t2, hd, hdig, _⟩ := natToStr_cons n
    rw [hd] at hc
    simp only [List.cons_append, List.head?_cons, Option.some.injEq] at hc
    subst hc
    exact digit_not_space hdig

theorem sepSplit_pair {f1 f2 : Str} (h1 : fieldOkB f1 = true) (h2 : fieldOkB f2 = true)
    (hhead : ∀ c, f2.head? = some c → pyIsSpace c = false) :
    sepSplit (f1 ++ '\t' :: '\t' :: f2) = [ f1, f2 ] := by
  unfold sepSplit
  rw [fieldOk_sg h1]
  rw [sepSplitGo_tabs hhead]
  have hr := fieldOk_sg h2 [] []
  rw [List.append_nil] at hr
  rw [hr, sepSplitGo_nil]
  simp

/-! ### Reading back the writer's lines -/

theorem head?_append_left {s t : Str} {c : Char} (h : s.head? = some c) :
    (s ++ t).head? = some c := by
  rw [List.head?_append, h]
  rfl

theorem plainField_head_ex (n u : Nat) {nm : Str} (hg : goodNameB nm = true) :
    ∃ c t, plainField n u nm = c :: t ∧ pyIsSpace c = false := by
  cases hp : plainField n u nm with
  | nil => exact absurd hp (plainField_ne_nil n u nm)
  | cons c t => exact ⟨c, t, rfl, plainField_head hg c (by rw [hp]; rfl)⟩

theorem readLineSbs_blank {l : Str} (h : pyStrip l = []) (tabs : Tables) :
    readLineSbs tabs l = tabs := by
  unfold readLineSbs
  rw [if_pos h]

theorem readLineSbs_skip_cheHao {l : Str} (h : hasSub2 '车' '号' (pyStrip l) = true)
    (tabs : Tables) : readLineSbs tabs l = tabs := by
  unfold readLineSbs
  by_cases h0 : pyStrip l = []
  · rw [if_pos h0]
  · rw [if_neg h0]
    simp only [h, if_pos]

theorem readLineSbs_row_both {n1 u1 n2 u2 : Nat} {nm1 nm2 : Str}
    (h1 : goodNameB nm1 = true) (h2 : goodNameB nm2 = true) (tabs : Tables) :
    readLineSbs tabs (plainField n1 u1 nm1 ++ '\t' :: '\t' :: plainField n2 u2 nm2) =
      ⟨tabs.c1 ++ [ (n1, u1, nm1) ], tabs.c2 ++ [ (n2, u2, nm2) ]⟩ := by
  obtain ⟨c1h, t1h, hf1, hc1⟩ := plainField_head_ex n1 u1 h1
  obtain ⟨c2h, t2h, hf2, hc2⟩ := plainField_head_ex n2 u2 h2
  have hstrip : pyStrip (plainField n1 u1 nm1 ++ '\t' :: '\t' :: plainField n2 u2 nm2) =
      plainField n1 u1 nm1 ++ '\t' :: '\t' :: plainField n2 u2 nm2 := by
    apply pyStrip_eq_self
    · intro c hc
      rw [head?_append_left (by rw [hf1]; rfl)] at hc
      rw [Option.some.injEq] at hc
      subst hc
      exact hc1
    · intro c hc
      rw [getLast?_append_right (by simp),
        show ('\t' :: '\t' :: plainField n2 u2 nm2) =
          [ '\t', '\t' ] ++ plainField n2 u2 nm2 from rfl,
        getLast?_append_right (plainField_ne_nil n2 u2 nm2)] at hc
      exact plainField_last n2 u2 nm2 c hc
  have hche : hasSub2 '车' '号' (plainField n1 u1 nm1 ++ '\t' :: '\t' ::
      plainField n2 u2 nm2) = false := by
    apply hasSub2_append_false (plainField_noCheHao h1)
    · rw [cheHao_cons_tab, cheHao_cons_tab]
      exact plainField_noCheHao h2
    · rw [List.head?_cons]
      decide
  have hdig : (plainField n1 u1 nm1 ++ '\t' :: '\t' ::
      plainField n2 u2 nm2).any isDigitChar = true := by
    rw [List.any_append, plainField_anyDigit]
    rfl
  have hhead : headIsSpace (plainField n1 u1 nm1 ++ '\t' :: '\t' ::
      plainField n2 u2 nm2) = false := by
    rw [hf1]
    simpa [headIsSpace] using hc1
  have hsplit : sepSplit (plainField n1 u1 nm1 ++ '\t' :: '\t' :: plainField n2 u2 nm2) =
      [ plainField n1 u1 nm1, plainField n2 u2 nm2 ] := by
    apply sepSplit_pair (plainField_fieldOk h1) (plainField_fieldOk h2)
    intro c hc
    rw [hf2] at hc
    rw [List.head?_cons, Option.some.injEq] at hc
    subst hc
    exact hc2
  simp only [readLineSbs, hstrip, hche, hdig, hhead, hsplit, plainField_strip h1,
    plainField_strip h2, plainField_parse h1, plainField_parse h2, addRec,
    List.getD_cons_zero, List.getD_cons_succ, List.length_cons, List.length_nil,
    Bool.and_false, Bool.false_eq_true, if_false, if_neg (by rw [hf1]; simp : ¬(plainField n1 u1 nm1 ++ '\t' :: '\t' :: plainField n2 u2 nm2 = [])),
    Nat.le_refl, if_true, Bool.not_true]

theorem parse_entry_tokens_nil : parse_entry_tokens [] = none := rfl

theorem readLineSbs_row_left {n1 u1 : Nat} {nm1 : Str}
    (h1 : goodNameB nm1 = true) (tabs : Tables) :
    readLineSbs tabs (plainField n1 u1 nm1 ++ '\t' :: '\t' :: []) =
      ⟨tabs.c1 ++ [ (n1, u1, nm1) ], tabs.c2⟩ := by
  obtain ⟨c1h, t1h, hf1, hc1⟩ := plainField_head_ex n1 u1 h1
  have hstrip : pyStrip (plainField n1 u1 nm1 ++ '\t' :: '\t' :: []) =
      plainField n1 u1 nm1 := by
    rw [pyStrip_append_ws
      (by intro c hc; rw [hf1, List.head?_cons, Option.some.injEq] at hc; subst hc; exact hc1)
      (by intro c hc; simp at hc; subst hc; decide)]
    exact plainField_strip h1
  have hche : hasSub2 '车' '号' (plainField n1 u1 nm1) = false := plainField_noCheHao h1
  have hdig : (plainField n1 u1 nm1).any isDigitChar = true := plainField_anyDigit n1 u1 nm1
  have hhead : headIsSpace (plainField n1 u1 nm1 ++ '\t' :: '\t' :: []) = false := by
    rw [hf1]
    simpa [headIsSpace] using hc1
  have hsplit : sepSplit (plainField n1 u1 nm1 ++ '\t' :: '\t' :: []) =
      [ plainField n1 u1 nm1, [] ] := by
    apply sepSplit_pair (plainField_fieldOk h1)
    · rfl
    · intro c hc
      simp at hc
  simp only [readLineSbs, hstrip, hche, hdig, hhead, hsplit, plainField_strip h1,
    plainField_parse h1, addRec, List.getD_cons_zero, List.getD_cons_succ,
    List.length_cons, List.length_nil, Bool.and_false, Bool.false_eq_true, if_false,
    if_neg (plainField_ne_nil n1 u1 nm1), Nat.le_refl, if_true, Bool.not_true,
    pyStrip_nil, pySplitWs_nil_eq, parse_entry_tokens_nil]

theorem readLineSbs_row_right {n2 u2 : Nat} {nm2 : Str}
    (h2 : goodNameB nm2 = true) (tabs : Tables) :
    readLineSbs tabs ('\t' :: '\t' :: plainField n2 u2 nm2) =
      ⟨tabs.c1, tabs.c2 ++ [ (n2, u2, nm2) ]⟩ := by
  have hstrip : pyStrip ('\t' :: '\t' :: plainField n2 u2 nm2) = plainField n2 u2 nm2 := by
    rw [pyStrip_cons_space (by decide), pyStrip_cons_space (by decide)]
    exact plainField_strip h2
  have hche : hasSub2 '车' '号' (plainField n2 u2 nm2) = false := plainField_noCheHao h2
  have hdig : (plainField n2 u2 nm2).any isDigitChar = true := plainField_anyDigit n2 u2 nm2
  have hhead : headIsSpace ('\t' :: '\t' :: plainField n2 u2 nm2) = true := rfl
  simp only [readLineSbs, hstrip, hche, hdig, hhead, plainField_parse h2, addRec,
    Bool.and_false, Bool.false_eq_true, if_false,
    if_neg (plainField_ne_nil n2 u2 nm2), if_true, Bool.not_true]

theorem rowLine_succ (r1 r2 : List Rec) (i : Nat) :
    rowLine r1 r2 (i + 1) = rowLine r1.tail r2.tail i := by
  cases r1 <;> cases r2 <;> rfl

theorem fold_rows : ∀ (n : Nat) (r1 r2 : List Rec) (tabs : Tables),
    (∀ r ∈ r1, goodNameB r.2.2 = true) → (∀ r ∈ r2, goodNameB r.2.2 = true) →
    List.foldl readLineSbs tabs ((List.range n).map (rowLine r1 r2)) =
      ⟨tabs.c1 ++ r1.take n, tabs.c2 ++ r2.take n⟩ := by
  intro n
  induction n with
  | zero =>
    intro r1 r2 tabs _ _
    simp
  | succ n ih =>
    intro r1 r2 tabs hg1 hg2
    rw [List.range_succ_eq_map, List.map_cons, List.foldl_cons, List.map_map]
    have hmap : (List.range n).map (rowLine r1 r2 ∘ Nat.succ) =
        (List.range n).map (rowLine r1.tail r2.tail) := by
      apply List.map_congr_left
      intro i _
      exact rowLine_succ r1 r2 i
    rw [hmap]
    cases r1 with
    | nil =>
      cases r2 with
      | nil =>
        have hstep : readLineSbs tabs (rowLine [] [] 0) = tabs :=
          readLineSbs_blank (by decide) tabs
        simp only [List.tail_nil]
        rw [hstep, ih [] [] tabs (by simp) (by simp)]
        simp
      | cons b l2 =>
        obtain ⟨bn, bu, bnm⟩ := b
        have hgb : goodNameB bnm = true := hg2 (bn, bu, bnm) (by simp)
        have hstep : readLineSbs tabs (rowLine [] ((bn, bu, bnm) :: l2) 0) =
            ⟨tabs.c1, tabs.c2 ++ [ (bn, bu, bnm) ]⟩ := by
          rw [show rowLine [] ((bn, bu, bnm) :: l2) 0 =
            '\t' :: '\t' :: fmtField (bn, bu, bnm) from rfl, fmtField_eq_plain hgb]
          exact readLineSbs_row_right hgb tabs
        simp only [List.tail_nil, List.tail_cons]
        rw [hstep, ih [] l2 _ (by simp) (fun r hr => hg2 r (by simp [hr]))]
        simp
    | cons a l1 =>
      obtain ⟨an, au, anm⟩ := a
      have hga : goodNameB anm = true := hg1 (an, au, anm) (by simp)
      cases r2 with
      | nil =>
        have hstep : readLineSbs tabs (rowLine ((an, au, anm) :: l1) [] 0) =
            ⟨tabs.c1 ++ [ (an, au, anm) ], tabs.c2⟩ := by
          rw [show rowLine ((an, au, anm) :: l1) [] 0 =
            fmtField (an, au, anm) ++ '\t' :: '\t' :: [] from rfl, fmtField_eq_plain hga]
          exact readLineSbs_row_left hga tabs
        simp only [List.tail_nil, List.tail_cons]
        rw [hstep, ih l1 [] _ (fun r hr => hg1 r (by simp [hr])) (by simp)]
        simp
      | cons b l2 =>
        obtain ⟨bn, bu, bnm⟩ := b
        have hgb : goodNameB bnm = true := hg2 (bn, bu, bnm) (by simp)
        have hstep : readLineSbs tabs
            (rowLine ((an, au, anm) :: l1) ((bn, bu, bnm) :: l2) 0) =
            ⟨tabs.c1 ++ [ (an, au, anm) ], tabs.c2 ++ [ (bn, bu, bnm) ]⟩ := by
          rw [show rowLine ((an, au, anm) :: l1) ((bn, bu, bnm) :: l2) 0 =
            fmtField (an, au, anm) ++ '\t' :: '\t' :: fmtField (bn, bu, bnm) from rfl,
            fmtField_eq_plain hga, fmtField_eq_plain hgb]
          exact readLineSbs_row_both hga hgb tabs
        simp only [List.tail_cons]
        rw [hstep, ih l1 l2 _ (fun r hr => hg1 r (by simp [hr]))
          (fun r hr => hg2 r (by simp [hr]))]
        simp

theorem joinNums_chars (rows : List Rec) :
    ∀ c ∈ joinNums rows, isDigitChar c = true ∨ c = ',' := by
  induction rows with
  | nil =>
    intro c hc
    exact absurd hc (List.not_mem_nil c)
  | cons r rest ih =>
    cases rest with
    | nil =>
      intro c hc
      exact Or.inl (natToStr_all_digit r.1 c hc)
    | cons r2 rest2 =>
      intro c hc
      rw [show joinNums (r :: r2 :: rest2) =
        natToStr r.1 ++ ',' :: joinNums (r2 :: rest2) from rfl] at hc
      rcases List.mem_append.mp hc with h | h
      · exact Or.inl (natToStr_all_digit r.1 c h)
      · rcases List.mem_cons.mp h with h | h
        · exact Or.inr h
        · exact ih c h

theorem readLineSbs_skip_summary {pre : Str} {p0 : Char}
    (hpre : hasSub2 '车' '号' pre = true)
    (hstripnil : hasSub2 '车' '号' (pyStrip pre) = true)
    (hh : pre.head? = some p0) (hp0 : pyIsSpace p0 = false)
    (rows : List Rec) (tabs : Tables) :
    readLineSbs tabs (pre ++ joinNums rows) = tabs := by
  apply readLineSbs_skip_cheHao
  cases hj : joinNums rows with
  | nil =>
    rw [List.append_nil]
    exact hstripnil
  | cons c0 j =>
    have hjs : ∀ c ∈ c0 :: j, pyIsSpace c = false := by
      rw [← hj]
      intro c hc
      rcases joinNums_chars rows c hc with h | h
      · exact digit_not_space h
      · subst h
        decide
    have hstrip : pyStrip (pre ++ c0 :: j) = pre ++ c0 :: j := by
      apply pyStrip_eq_self
      · intro c hc
        rw [head?_append_left hh, Option.some.injEq] at hc
        subst hc
        exact hp0
      · intro c hc
        rw [getLast?_append_right (by simp)] at hc
        exact hjs c (mem_of_getLast?_eq hc)
    rw [hstrip]
    exact hasSub2_append_left hpre _

theorem fold_tail (rows1 rows2 : List Rec) (tb : Tables) :
    List.foldl readLineSbs tb
      [ [], "车号选择范围：0，2-999未选号码".data,
        "C1 已使用车号: ".data ++ joinNums rows1,
        "C2 已使用车号: ".data ++ joinNums rows2,
        "车号具体使用人见《 车号统计》".data ] = tb := by
  rw [List.foldl_cons, readLineSbs_blank (show pyStrip [] = [] from rfl)]
  rw [List.foldl_cons,
    @readLineSbs_skip_cheHao ( "车号选择范围：0，2-999未选号码".data) (by decide) _]
  rw [List.foldl_cons, @readLineSbs_skip_summary ( "C1 已使用车号: ".data) 'C'
    (by decide) (by decide) rfl (by decide) rows1 _]
  rw [List.foldl_cons, @readLineSbs_skip_summary ( "C2 已使用车号: ".data) 'C'
    (by decide) (by decide) rfl (by decide) rows2 _]
  rw [List.foldl_cons,
    @readLineSbs_skip_cheHao ( "车号具体使用人见《 车号统计》".data) (by decide) _]
  rfl

theorem sideBySideDetect_cons_true {l : Str}
    (h : (!(pyStrip l).isEmpty && (hasSub2 'C' '1' l && hasSub2 'C' '2' l)) = true)
    (rest : List Str) : sideBySideDetect (l :: rest) = true := by
  unfold sideBySideDetect
  rw [List.any_cons, h]
  rfl

theorem mem_sortByNum {r : Rec} {l : List Rec} : r ∈ sortByNum l ↔ r ∈ l :=
  (List.perm_insertionSort keyLE l).mem_iff

theorem sortByNum_sorted (l : List Rec) : List.Sorted keyLE (sortByNum l) :=
  List.sorted_insertionSort keyLE l

theorem sortByNum_idem (l : List Rec) : sortByNum (sortByNum l) = sortByNum l :=
  List.Sorted.insertionSort_eq (sortByNum_sorted l)

/-- Round trip at the table level: reading back the written lines recovers the
two sorted tables, provided every name is serialisable. -/
theorem read_write_tables (t : Tables)
    (hg1 : ∀ r ∈ t.c1, goodNameB r.2.2 = true)
    (hg2 : ∀ r ∈ t.c2, goodNameB r.2.2 = true) :
    read_tables_from_txt (write_tables_to_txt t) =
      ⟨sortByNum t.c1, sortByNum t.c2⟩ := by
  have hgs1 : ∀ r ∈ sortByNum t.c1, goodNameB r.2.2 = true := fun r hr =>
    hg1 r (mem_sortByNum.mp hr)
  have hgs2 : ∀ r ∈ sortByNum t.c2, goodNameB r.2.2 = true := fun r hr =>
    hg2 r (mem_sortByNum.mp hr)
  simp only [write_tables_to_txt, read_tables_from_txt]
  rw [if_pos ?hdet]
  case hdet =>
    unfold sideBySideDetect
    rw [List.any_append, List.any_append]
    rw [show List.any [ "C1\t\t\tC2".data, "车手 车号 闲置赛季数\t\t车手 车号 闲置赛季数".data ]
      (fun ln => !(pyStrip ln).isEmpty && (hasSub2 'C' '1' ln && hasSub2 'C' '2' ln)) =
      true from by decide]
    rfl
  rw [List.foldl_append, List.foldl_append]
  rw [show List.foldl readLineSbs ⟨[], []⟩
    [ "C1\t\t\tC2".data, "车手 车号 闲置赛季数\t\t车手 车号 闲置赛季数".data ] =
    (⟨[], []⟩ : Tables) from by decide]
  rw [fold_rows _ _ _ _ hgs1 hgs2]
  rw [fold_tail]
  simp only [List.nil_append]
  rw [List.take_of_length_le (Nat.le_max_left _ _), List.take_of_length_le (Nat.le_max_right _ _)]
  rw [sortByNum_idem, sortByNum_idem]

/-! ### Working-map (association list) facts -/

/-- Keys are pairwise distinct. -/
def keysNodup (d : List Rec) : Prop :=
  List.Pairwise (fun a b => a.1 ≠ b.1) d

/-- Decidable key uniqueness, mirroring the Table invariant. -/
def keysNodupB : List Rec → Bool
  | [] => true
  | r :: rest => rest.all (fun p => !(p.1 == r.1)) && keysNodupB rest

theorem keysNodup_of_B : ∀ {d : List Rec}, keysNodupB d = true → keysNodup d := by
  intro d
  induction d with
  | nil =>
    intro _
    exact List.Pairwise.nil
  | cons r rest ih =>
    intro h
    simp only [keysNodupB, Bool.and_eq_true, List.all_eq_true] at h
    refine List.pairwise_cons.mpr ⟨?_, ih h.2⟩
    intro p hp he
    have := h.1 p hp
    simp only [Bool.not_eq_true', beq_eq_false_iff_ne] at this
    exact this he.symm

theorem ofPairs_eq (d : AList) : ofPairs d = d := by
  unfold ofPairs
  have : (fun p : Rec => (p.1, p.2.1, p.2.2)) = id := by
    funext p
    rfl
  rw [this, List.map_id]

theorem alInsert_fresh {k : Nat} {v : Nat × Str} {d : AList}
    (h : ∀ p ∈ d, p.1 ≠ k) : alInsert k v d = d ++ [ (k, v) ] := by
  unfold alInsert
  rw [if_neg]
  simp only [List.any_eq_true, beq_iff_eq, not_exists, not_and]
  exact h

theorem toPairs_eq_self {rows : List Rec} (h : keysNodup rows) : toPairs rows = rows := by
  suffices hgen : ∀ (rows : List Rec) (acc : AList), keysNodup rows →
      (∀ r ∈ rows, ∀ p ∈ acc, p.1 ≠ r.1) →
      rows.foldl (fun d r => alInsert r.1 (r.2.1, r.2.2) d) acc = acc ++ rows by
    have := hgen rows [] h (by simp)
    simpa [toPairs] using this
  intro rows
  induction rows with
  | nil =>
    intro acc _ _
    simp
  | cons r rest ih =>
    intro acc hnd hfresh
    rw [List.foldl_cons]
    rw [show alInsert r.1 (r.2.1, r.2.2) acc = acc ++ [ r ] from ?step]
    case step =>
      rw [alInsert_fresh (fun p hp => hfresh r (by simp) p hp)]
    rw [ih (acc ++ [ r ]) (List.pairwise_cons.mp hnd).2 ?fresh2]
    · simp
    case fresh2 =>
      intro r2 hr2 p hp
      rcases List.mem_append.mp hp with h1 | h1
      · exact hfresh r2 (by simp [hr2]) p h1
      · rcases List.mem_singleton.mp h1 with rfl
        exact (List.pairwise_cons.mp hnd).1 r2 hr2

theorem find?_key_cons_pos {k : Nat} {q : Rec} (l : List Rec) (h : q.1 = k) :
    List.find? (fun p : Rec => p.1 == k) (q :: l) = some q :=
  List.find?_cons_of_pos l (by simp [h])

theorem find?_key_cons_neg {k : Nat} {q : Rec} (l : List Rec) (h : q.1 ≠ k) :
    List.find? (fun p : Rec => p.1 == k) (q :: l) = List.find? (fun p : Rec => p.1 == k) l :=
  List.find?_cons_of_neg l (by simp [h])

theorem alGet_of_mem_nodup {k : Nat} {v : Nat × Str} {d : AList}
    (hnd : keysNodup d) (hmem : (k, v) ∈ d) : alGet k d = some v := by
  induction d with
  | nil => exact absurd hmem (List.not_mem_nil _)
  | cons p d' ih =>
    rcases List.mem_cons.mp hmem with h1 | h1
    · subst h1
      unfold alGet
      rw [find?_key_cons_pos d' (show ((k, v) : Rec).1 = k from rfl)]
      rfl
    · have hne : p.1 ≠ k := by
        have := (List.pairwise_cons.mp hnd).1 (k, v) h1
        simpa using this
      unfold alGet
      rw [find?_key_cons_neg d' hne]
      exact ih (List.pairwise_cons.mp hnd).2 h1

theorem mem_of_alGet {k : Nat} {v : Nat × Str} {d : AList}
    (h : alGet k d = some v) : (k, v) ∈ d := by
  unfold alGet at h
  cases hf : d.find? (fun p => p.1 == k) with
  | none =>
    rw [hf] at h
    cases h
  | some p =>
    rw [hf] at h
    have hp : p.1 = k := by simpa using List.find?_some hf
    have hmem := List.mem_of_find?_eq_some hf
    simp only [Option.map_some', Option.some.injEq] at h
    have hpv : p = (k, v) := by
      obtain ⟨p1, p2⟩ := p
      simp only at hp h
      rw [hp, h]
    rw [← hpv]
    exact hmem

theorem alGet_eq_none {k : Nat} {d : AList} (h : ∀ p ∈ d, p.1 ≠ k) :
    alGet k d = none := by
  unfold alGet
  rw [List.find?_eq_none.mpr (by intro p hp; simp [h p hp])]
  rfl

theorem not_mem_of_alGet_none {k : Nat} {d : AList} (h : alGet k d = none) :
    ∀ p ∈ d, p.1 ≠ k := by
  intro p hp he
  unfold alGet at h
  rw [Option.map_eq_none'] at h
  have := List.find?_eq_none.mp h p hp
  simp [he] at this

theorem find?_key_map_self {k : Nat} (v : Nat × Str) :
    ∀ d : AList, (d.any fun p => p.1 == k) = true →
      List.find? (fun p : Rec => p.1 == k)
        (d.map (fun p => if p.1 == k then (k, v) else p)) = some (k, v) := by
  intro d
  induction d with
  | nil =>
    intro h
    simp at h
  | cons p d' ih =>
    intro hany
    rw [List.map_cons]
    by_cases hp : p.1 = k
    · rw [if_pos (by simp [hp])]
      rw [find?_key_cons_pos _ (show ((k, v) : Rec).1 = k from rfl)]
    · rw [if_neg (by simp [hp])]
      rw [find?_key_cons_neg _ hp]
      apply ih
      simp only [List.any_cons, Bool.or_eq_true, beq_iff_eq] at hany
      rcases hany with h1 | h1
      · exact absurd h1 hp
      · exact h1

theorem find?_key_map_ne {k k' : Nat} (hne : k' ≠ k) (v : Nat × Str) :
    ∀ d : AList,
      List.find? (fun p : Rec => p.1 == k')
        (d.map (fun p => if p.1 == k then (k, v) else p)) =
      List.find? (fun p : Rec => p.1 == k') d := by
  intro d
  induction d with
  | nil => rfl
  | cons p d' ih =>
    rw [List.map_cons]
    by_cases hp : p.1 = k
    · rw [if_pos (by simp [hp])]
      rw [find?_key_cons_neg _ (show ((k, v) : Rec).1 ≠ k' from Ne.symm hne)]
      rw [find?_key_cons_neg _ (show p.1 ≠ k' from by rw [hp]; exact Ne.symm hne)]
      exact ih
    · rw [if_neg (by simp [hp])]
      by_cases hp' : p.1 = k'
      · rw [find?_key_cons_pos _ hp', find?_key_cons_pos _ hp']
      · rw [find?_key_cons_neg _ hp', find?_key_cons_neg _ hp']
        exact ih

theorem alGet_alInsert_self (k : Nat) (v : Nat × Str) (d : AList) :
    alGet k (alInsert k v d) = some v := by
  unfold alInsert
  split
  · rename_i hany
    unfold alGet
    rw [find?_key_map_self v d hany]
    rfl
  · rename_i hany
    unfold alGet
    rw [List.find?_append]
    have hnone : List.find? (fun p : Rec => p.1 == k) d = none := by
      rw [List.find?_eq_none]
      intro p hp
      simp only [Bool.not_eq_true, beq_eq_false_iff_ne]
      intro he
      exact hany (by simp only [List.any_eq_true, beq_iff_eq]; exact ⟨p, hp, he⟩)
    rw [hnone, Option.none_or]
    rw [show List.find? (fun p : Rec => p.1 == k) [ (k, v) ] = some (k, v) from
      find?_key_cons_pos [] (show ((k, v) : Rec).1 = k from rfl)]
    rfl

theorem alGet_alInsert_ne {k k' : Nat} (hne : k' ≠ k) (v : Nat × Str) (d : AList) :
    alGet k' (alInsert k v d) = alGet k' d := by
  unfold alInsert
  split
  · unfold alGet
    rw [find?_key_map_ne hne v d]
  · unfold alGet
    rw [List.find?_append]
    have hnone : List.find? (fun p : Rec => p.1 == k') [ (k, v) ] = none := by
      simp [Ne.symm hne]
    rw [hnone, Option.or_none]

/-! ### The two phases of `update_table_rows` -/

theorem alGet_cons_self {q : Rec} {k : Nat} (h : q.1 = k) (l : AList) :
    alGet k (q :: l) = some q.2 := by
  unfold alGet
  rw [find?_key_cons_pos _ h]
  rfl

theorem alGet_cons_ne {q : Rec} {k : Nat} (h : q.1 ≠ k) (l : AList) :
    alGet k (q :: l) = alGet k l := by
  unfold alGet
  rw [find?_key_cons_neg _ h]

theorem incEntry_key {ns : List Nat} {m : Nat} {p q : Rec}
    (h : incEntry ns m p = some q) : q.1 = p.1 := by
  unfold incEntry at h
  split at h
  · cases h
    rfl
  · split at h
    · cases h
    · cases h
      rfl

theorem alGet_filterMap_inc_none {ns : List Nat} {m k : Nat} {d : AList}
    (h : alGet k d = none) :
    alGet k (d.filterMap (incEntry ns m)) = none := by
  apply alGet_eq_none
  intro q hq
  rcases List.mem_filterMap.mp hq with ⟨p, hp, hfp⟩
  rw [incEntry_key hfp]
  exact not_mem_of_alGet_none h p hp

theorem alGet_filterMap_inc {ns : List Nat} {m k : Nat} :
    ∀ {d : AList} {u : Nat} {nm : Str}, keysNodup d → alGet k d = some (u, nm) →
    alGet k (d.filterMap (incEntry ns m)) =
      (if ns.contains k then some (u, nm)
       else if m ≤ u + 1 then none else some (u + 1, nm)) := by
  intro d
  induction d with
  | nil =>
    intro u nm _ hget
    simp [alGet] at hget
  | cons p d' ih =>
    intro u nm hnd hget
    by_cases hp : p.1 = k
    · have hp2 : p.2 = (u, nm) := by
        rw [alGet_cons_self hp] at hget
        simpa using hget
      have hu : p.2.1 = u := by rw [hp2]
      have hnm : p.2.2 = nm := by rw [hp2]
      have hd' : ∀ q ∈ d', q.1 ≠ k := by
        intro q hq he
        exact ((List.pairwise_cons.mp hnd).1 q hq) (hp.trans he.symm)
      by_cases hc : ns.contains k
      · rw [List.filterMap_cons_some
          (show incEntry ns m p = some p by unfold incEntry; rw [hp, if_pos hc])]
        rw [alGet_cons_self hp, hp2, if_pos hc]
      · by_cases hm : m ≤ u + 1
        · rw [List.filterMap_cons_none
            (show incEntry ns m p = none by
              unfold incEntry; rw [hp, hu, if_neg hc, if_pos hm])]
          rw [if_neg hc, if_pos hm]
          exact alGet_filterMap_inc_none (alGet_eq_none hd')
        · rw [List.filterMap_cons_some
            (show incEntry ns m p = some (k, (u + 1, nm)) by
              unfold incEntry; rw [hp, hu, hnm, if_neg hc, if_neg hm])]
          rw [alGet_cons_self (show ((k, u + 1, nm) : Rec).1 = k from rfl)
            (List.filterMap (incEntry ns m) d'), if_neg hc, if_neg hm]
    · rw [alGet_cons_ne hp] at hget
      have htail := ih (List.pairwise_cons.mp hnd).2 hget
      cases hfp : incEntry ns m p with
      | none =>
        rw [List.filterMap_cons_none hfp]
        exact htail
      | some q =>
        rw [List.filterMap_cons_some hfp]
        rw [alGet_cons_ne (by rw [incEntry_key hfp]; exact hp)]
        exact htail

theorem mem_filterMap_inc_bound {ns : List Nat} {m : Nat} {d : AList} {q : Rec}
    (hq : q ∈ d.filterMap (incEntry ns m)) (hobs : ns.contains q.1 = false) :
    q.2.1 < m := by
  rcases List.mem_filterMap.mp hq with ⟨p, hp, hfp⟩
  unfold incEntry at hfp
  split at hfp
  · rename_i hc
    injection hfp with hfp
    subst hfp
    rw [hc] at hobs
    exact Bool.noConfusion hobs
  · split at hfp
    · cases hfp
    · rename_i hm
      injection hfp with hfp
      subst hfp
      show p.2.1 + 1 < m
      omega

/-! ### Observed-numbers phase -/

theorem obsStep_get_self (d : AList) (n : Nat) :
    alGet n (obsStep d n) = some (0,
      match alGet n d with
      | some (_, old) => old
      | none => []) := by
  cases h : alGet n d with
  | some v =>
    obtain ⟨u, old⟩ := v
    unfold obsStep
    rw [h]
    exact alGet_alInsert_self n (0, old) d
  | none =>
    unfold obsStep
    rw [h]
    exact alGet_alInsert_self n (0, []) d

theorem obsStep_get_ne {n k : Nat} (hne : k ≠ n) (d : AList) :
    alGet k (obsStep d n) = alGet k d := by
  unfold obsStep
  cases alGet n d with
  | some v =>
    obtain ⟨u, old⟩ := v
    exact alGet_alInsert_ne hne (0, old) d
  | none => exact alGet_alInsert_ne hne (0, []) d

theorem obsFold_preserve {k : Nat} {nm : Str} :
    ∀ (ns : List Nat) (d : AList), alGet k d = some (0, nm) →
      alGet k (ns.foldl obsStep d) = some (0, nm) := by
  intro ns
  induction ns with
  | nil =>
    intro d h
    exact h
  | cons m ns' ih =>
    intro d h
    rw [List.foldl_cons]
    by_cases hm : k = m
    · subst hm
      apply ih
      rw [obsStep_get_self, h]
    · apply ih
      rw [obsStep_get_ne hm, h]

theorem obsFold_get {n : Nat} :
    ∀ (ns : List Nat), n ∈ ns → ∀ d : AList,
      alGet n (ns.foldl obsStep d) = some (0,
        match alGet n d with
        | some (_, old) => old
        | none => []) := by
  intro ns
  induction ns with
  | nil =>
    intro h
    exact absurd h (List.not_mem_nil n)
  | cons m ns' ih =>
    intro hn d
    rw [List.foldl_cons]
    by_cases hm : n = m
    · subst hm
      exact obsFold_preserve ns' (obsStep d n) (obsStep_get_self d n)
    · have hn' : n ∈ ns' := by
        rcases List.mem_cons.mp hn with h | h
        · exact absurd h hm
        · exact h
      rw [ih hn' (obsStep d m), obsStep_get_ne hm]

theorem obsFold_not_mem {k : Nat} :
    ∀ (ns : List Nat), ¬ k ∈ ns → ∀ d : AList,
      alGet k (ns.foldl obsStep d) = alGet k d := by
  intro ns
  induction ns with
  | nil =>
    intro _ d
    rfl
  | cons m ns' ih =>
    intro hk d
    rw [List.foldl_cons]
    have hm : k ≠ m := fun he => hk (by simp [he])
    rw [ih (fun h => hk (by simp [h])) (obsStep d m), obsStep_get_ne hm]

/-! ### Key uniqueness through the phases -/

theorem keysNodup_alInsert {k : Nat} {v : Nat × Str} {d : AList}
    (h : keysNodup d) : keysNodup (alInsert k v d) := by
  unfold keysNodup alInsert
  split
  · apply List.Pairwise.map _ _ h
    intro a b hab
    have ha : (if (a.1 == k) = true then ((k, v) : Rec) else a).1 = a.1 := by
      split
      · rename_i hx
        simp only
        exact (beq_iff_eq.mp hx).symm
      · rfl
    have hb : (if (b.1 == k) = true then ((k, v) : Rec) else b).1 = b.1 := by
      split
      · rename_i hx
        simp only
        exact (beq_iff_eq.mp hx).symm
      · rfl
    rw [ha, hb]
    exact hab
  · rename_i hany
    rw [List.pairwise_append]
    refine ⟨h, by simp, ?_⟩
    intro p hp q hq
    rcases List.mem_singleton.mp hq with rfl
    simp only
    intro he
    exact hany (by simp only [List.any_eq_true, beq_iff_eq]; exact ⟨p, hp, he⟩)

theorem keysNodup_filterMap_inc {ns : List Nat} {m : Nat} :
    ∀ {d : AList}, keysNodup d → keysNodup (d.filterMap (incEntry ns m)) := by
  intro d
  induction d with
  | nil =>
    intro _
    exact List.Pairwise.nil
  | cons p d' ih =>
    intro h
    have h' := List.pairwise_cons.mp h
    cases hfp : incEntry ns m p with
    | none =>
      rw [List.filterMap_cons_none hfp]
      exact ih h'.2
    | some q =>
      rw [List.filterMap_cons_some hfp]
      refine List.pairwise_cons.mpr ⟨?_, ih h'.2⟩
      intro r hr
      rcases List.mem_filterMap.mp hr with ⟨p', hp', hfp'⟩
      rw [incEntry_key hfp, incEntry_key hfp']
      exact h'.1 p' hp'

theorem keysNodup_obsStep {d : AList} (n : Nat) (h : keysNodup d) :
    keysNodup (obsStep d n) := by
  unfold obsStep
  cases alGet n d with
  | some v =>
    obtain ⟨u, old⟩ := v
    exact keysNodup_alInsert h
  | none => exact keysNodup_alInsert h

theorem keysNodup_obsFold :
    ∀ (ns : List Nat) {d : AList}, keysNodup d → keysNodup (ns.foldl obsStep d) := by
  intro ns
  induction ns with
  | nil =>
    intro d h
    exact h
  | cons m ns' ih =>
    intro d h
    rw [List.foldl_cons]
    exact ih (keysNodup_obsStep m h)

theorem keysNodup_toPairs (rows : List Rec) : keysNodup (toPairs rows) := by
  suffices hgen : ∀ (rows : List Rec) (acc : AList), keysNodup acc →
      keysNodup (rows.foldl (fun d r => alInsert r.1 (r.2.1, r.2.2) d) acc) by
    exact hgen rows [] List.Pairwise.nil
  intro rows
  induction rows with
  | nil =>
    intro acc h
    exact h
  | cons r rest ih =>
    intro acc h
    rw [List.foldl_cons]
    exact ih _ (keysNodup_alInsert h)

/-! ### Ascending order predicates -/

/-- Strictly ascending by number (the Table sort invariant). -/
def strictAscB : List Rec → Bool
  | [] => true
  | [_] => true
  | a :: b :: l => decide (a.1 < b.1) && strictAscB (b :: l)

/-- Weakly ascending by number. -/
def ascB : List Rec → Bool
  | [] => true
  | [_] => true
  | a :: b :: l => decide (a.1 ≤ b.1) && ascB (b :: l)

theorem strictAscB_iff_chain :
    ∀ l : List Rec, strictAscB l = true ↔ List.Chain' keyLT l := by
  intro l
  induction l with
  | nil => simp [strictAscB]
  | cons a l ih =>
    cases l with
    | nil => simp [strictAscB]
    | cons b t =>
      rw [show strictAscB (a :: b :: t) = (decide (a.1 < b.1) && strictAscB (b :: t))
        from rfl, List.chain'_cons]
      rw [Bool.and_eq_true, decide_eq_true_iff]
      exact and_congr Iff.rfl ih

theorem ascB_iff_chain :
    ∀ l : List Rec, ascB l = true ↔ List.Chain' keyLE l := by
  intro l
  induction l with
  | nil => simp [ascB]
  | cons a l ih =>
    cases l with
    | nil => simp [ascB]
    | cons b t =>
      rw [show ascB (a :: b :: t) = (decide (a.1 ≤ b.1) && ascB (b :: t))
        from rfl, List.chain'_cons]
      rw [Bool.and_eq_true, decide_eq_true_iff]
      exact and_congr Iff.rfl ih

theorem strictAscB_iff_pairwise {l : List Rec} :
    strictAscB l = true ↔ List.Pairwise keyLT l :=
  (strictAscB_iff_chain l).trans List.chain'_iff_pairwise

theorem ascB_iff_pairwise {l : List Rec} :
    ascB l = true ↔ List.Pairwise keyLE l :=
  (ascB_iff_chain l).trans List.chain'_iff_pairwise

theorem pairwise_lt_of_le_ne {l : List Rec} (h1 : List.Pairwise keyLE l)
    (h2 : keysNodup l) : List.Pairwise keyLT l := by
  induction l with
  | nil => exact List.Pairwise.nil
  | cons a t ih =>
    rw [List.pairwise_cons] at h1 ⊢
    unfold keysNodup at h2
    rw [List.pairwise_cons] at h2
    refine ⟨?_, ih h1.2 h2.2⟩
    intro b hb
    exact Nat.lt_of_le_of_ne (h1.1 b hb) (h2.1 b hb)

theorem keysNodup_of_pairwise_lt {l : List Rec} (h : List.Pairwise keyLT l) :
    keysNodup l :=
  h.imp (fun hab => Nat.ne_of_lt hab)

theorem keysNodup_sortByNum {l : List Rec} (h : keysNodup l) :
    keysNodup (sortByNum l) :=
  ((List.perm_insertionSort keyLE l).pairwise_iff
    (fun hab => Ne.symm hab)).mpr h

theorem strictAscB_sortByNum {l : List Rec} (h : keysNodup l) :
    strictAscB (sortByNum l) = true :=
  strictAscB_iff_pairwise.mpr
    (pairwise_lt_of_le_ne (List.sorted_insertionSort keyLE l) (keysNodup_sortByNum h))

theorem ascB_sortByNum (l : List Rec) : ascB (sortByNum l) = true :=
  ascB_iff_pairwise.mpr (List.sorted_insertionSort keyLE l)

theorem sortByNum_eq_of_sorted {l : List Rec} (h : List.Pairwise keyLE l) :
    sortByNum l = l :=
  List.Sorted.insertionSort_eq h

theorem sortByNum_eq_of_strict {l : List Rec} (h : strictAscB l = true) :
    sortByNum l = l :=
  sortByNum_eq_of_sorted ((strictAscB_iff_pairwise.mp h).imp
    (fun hab => Nat.le_of_lt hab))

theorem strictAscB_filter {l : List Rec} (h : strictAscB l = true) (p : Rec → Bool) :
    strictAscB (l.filter p) = true :=
  strictAscB_iff_pairwise.mpr
    ((strictAscB_iff_pairwise.mp h).sublist (List.filter_sublist l))

/-! ### Helpers relating `contains` and membership -/

theorem contains_true_of_mem {a : Nat} {l : List Nat} (h : a ∈ l) : l.contains a = true :=
  List.elem_iff.mpr h

theorem contains_false_not_mem {a : Nat} {l : List Nat} (h : l.contains a = false) :
    ¬ a ∈ l := by
  intro hm
  rw [show l.contains a = true from List.elem_iff.mpr hm] at h
  exact Bool.noConfusion h

theorem contains_false_of_not_mem {a : Nat} {l : List Nat} (h : ¬ a ∈ l) :
    l.contains a = false := by
  cases hc : l.contains a
  · rfl
  · exact absurd (List.elem_iff.mp hc) h

/-! ### The claims -/

/--
C1 (amended): Round-trip.  For every roster whose tables have unique
within-table numbers and whose names are serialisable — containing no
character of Python's whitespace class, not themselves `isdigit`-true
strings (both in Python's full Unicode sense), and not containing the header
marker `车号` — feeding the Fixed-Layout Writer's output text back through
the Format-Aware Reader (side-by-side branch) yields an equivalent roster:
every written cell re-parses, exception-free, to exactly its record, and the
whole read returns the same records per table in ascending-by-number order.
-/
theorem claim_C1_roundtrip (t : Tables)
    (_hu1 : keysNodupB t.c1 = true) (_hu2 : keysNodupB t.c2 = true)
    (hg1 : ∀ r ∈ t.c1, goodNameB r.2.2 = true)
    (hg2 : ∀ r ∈ t.c2, goodNameB r.2.2 = true) :
    (∀ r ∈ t.c1 ++ t.c2, parse_entry_tokensE (pySplitWs (fmtField r)) =
        Except.ok (some r)) ∧
    read_tables_from_txt (write_tables_to_txt t) =
      ⟨sortByNum t.c1, sortByNum t.c2⟩ := by
  refine ⟨?_, read_write_tables t hg1 hg2⟩
  intro r hr
  rcases List.mem_append.mp hr with h | h
  · obtain ⟨n, u, nm⟩ := r
    exact fmtField_parseE (hg1 _ h)
  · obtain ⟨n, u, nm⟩ := r
    exact fmtField_parseE (hg2 _ h)

/--
C1 counterexample: the roster `C1 = [(5, 0, "7")]` has unique within-table
numbers, yet the round trip does not reproduce it — the written cell `7 5 0`
is re-parsed as number 7 with idle count 5 and empty name.
-/
theorem claim_C1_counterexample :
    keysNodupB [ (5, 0, [ '7' ]) ] = true ∧
    read_tables_from_txt (write_tables_to_txt ⟨[ (5, 0, [ '7' ]) ], []⟩) ≠
      ⟨sortByNum [ (5, 0, [ '7' ]) ], sortByNum []⟩ := by
  exact ⟨by decide, by decide⟩

theorem claim_C1_witness :
    parse_entry_tokensE (pySplitWs (fmtField (5, 0, [ '张' ]))) =
      Except.ok (some (5, 0, [ '张' ])) ∧
    read_tables_from_txt (write_tables_to_txt ⟨[ (5, 0, [ '张' ]) ], [ (9, 2, []) ]⟩) =
      ⟨sortByNum [ (5, 0, [ '张' ]) ], sortByNum [ (9, 2, []) ]⟩ :=
  ⟨(claim_C1_roundtrip ⟨[ (5, 0, [ '张' ]) ], [ (9, 2, []) ]⟩ (by decide) (by decide)
      (by decide) (by decide)).1 (5, 0, [ '张' ]) (by decide),
   (claim_C1_roundtrip ⟨[ (5, 0, [ '张' ]) ], [ (9, 2, []) ]⟩ (by decide) (by decide)
      (by decide) (by decide)).2⟩

/--
C2: Expiry removal under the increment policy.  For a table with unique
numbers, an existing record `(num, u, nm)` whose number is not observed is
deleted when `u + 1` reaches the threshold and kept as `(num, u + 1, nm)`
otherwise.
-/
theorem claim_C2_expiry (rows : List Rec) (obs : List Nat) (maxU num u : Nat)
    (nm : Str) (hnd : keysNodupB rows = true) (hmem : (num, u, nm) ∈ rows)
    (habs : obs.contains num = false) :
    (maxU ≤ u + 1 → ∀ p ∈ update_table_rows rows obs maxU true, p.1 ≠ num) ∧
    (u + 1 < maxU → (num, u + 1, nm) ∈ update_table_rows rows obs maxU true) := by
  have hnd' := keysNodup_of_B hnd
  have hT : toPairs rows = rows := toPairs_eq_self hnd'
  have hget : alGet num (toPairs rows) = some (u, nm) := by
    rw [hT]
    exact alGet_of_mem_nodup hnd' hmem
  have hnot : ¬ num ∈ obs := contains_false_not_mem habs
  have hud : update_table_rows rows obs maxU true =
      sortByNum (ofPairs (obs.foldl obsStep
        ((toPairs rows).filterMap (incEntry obs maxU)))) := rfl
  have hinc := @alGet_filterMap_inc obs maxU num (toPairs rows) u nm
    (keysNodup_toPairs rows) hget
  rw [if_neg (by rw [habs]; exact Bool.noConfusion)] at hinc
  have hd2 : alGet num (obs.foldl obsStep ((toPairs rows).filterMap (incEntry obs maxU))) =
      alGet num ((toPairs rows).filterMap (incEntry obs maxU)) :=
    obsFold_not_mem obs hnot _
  constructor
  · intro hge p hp
    rw [hud, ofPairs_eq] at hp
    have hp2 := mem_sortByNum.mp hp
    rw [if_pos hge] at hinc
    intro he
    exact not_mem_of_alGet_none (hd2.trans hinc) p hp2 he
  · intro hlt
    rw [if_neg (by omega)] at hinc
    rw [hud, ofPairs_eq]
    apply mem_sortByNum.mpr
    exact mem_of_alGet (hd2.trans hinc)

theorem claim_C2_witness :
    (3 ≤ 2 + 1 → ∀ p ∈ update_table_rows [ (5, 2, [ 'a' ]) ] [] 3 true, p.1 ≠ 5) ∧
    (0 + 1 < 3 → (7, 0 + 1, [ 'b' ]) ∈ update_table_rows [ (7, 0, [ 'b' ]) ] [] 3 true) :=
  ⟨(claim_C2_expiry [ (5, 2, [ 'a' ]) ] [] 3 5 2 [ 'a' ] (by decide) (by decide)
      (by decide)).1,
   (claim_C2_expiry [ (7, 0, [ 'b' ]) ] [] 3 7 0 [ 'b' ] (by decide) (by decide)
      (by decide)).2⟩

/--
C3 (amended): Sort invariant.  Bulk Reconcile and Single Upsert always return
strictly ascending tables with no duplicate numbers; Bulk Delete preserves
strict ascent; the Reader's tables are always (weakly) ascending, but may
contain duplicate numbers when the input text repeats a number in one table.
-/
theorem claim_C3_sort :
    (∀ (rows : List Rec) (obs : List Nat) (maxU : Nat) (inc : Bool),
      strictAscB (update_table_rows rows obs maxU inc) = true) ∧
    (∀ (rows : List Rec) (n newU : Nat) (name : Str) (maxU : Nat),
      strictAscB (set_single_entry rows n newU name maxU) = true) ∧
    (∀ (rows : List Rec) (nums : List Nat), strictAscB rows = true →
      strictAscB (delete_entry rows nums) = true) ∧
    (∀ lines : List Str, ascB (read_tables_from_txt lines).c1 = true ∧
      ascB (read_tables_from_txt lines).c2 = true) := by
  refine ⟨?_, ?_, ?_, ?_⟩
  · intro rows obs maxU inc
    have hud : update_table_rows rows obs maxU inc =
        sortByNum (ofPairs (obs.foldl obsStep
          (if inc then (toPairs rows).filterMap (incEntry obs maxU)
           else toPairs rows))) := rfl
    rw [hud, ofPairs_eq]
    apply strictAscB_sortByNum
    apply keysNodup_obsFold
    cases inc
    · exact keysNodup_toPairs rows
    · exact keysNodup_filterMap_inc (keysNodup_toPairs rows)
  · intro rows n newU name maxU
    have hud : set_single_entry rows n newU name maxU =
        sortByNum (ofPairs (if maxU ≤ newU then alErase n (toPairs rows)
          else match alGet n (toPairs rows) with
            | none => alInsert n (newU, name) (toPairs rows)
            | some (_, old_name) =>
              alInsert n (newU, if name = [] then old_name else name)
                (toPairs rows))) := rfl
    rw [hud, ofPairs_eq]
    apply strictAscB_sortByNum
    split
    · exact List.Pairwise.sublist (List.filter_sublist _) (keysNodup_toPairs rows)
    · cases alGet n (toPairs rows) with
      | none => exact keysNodup_alInsert (keysNodup_toPairs rows)
      | some v =>
        obtain ⟨u, old⟩ := v
        exact keysNodup_alInsert (keysNodup_toPairs rows)
  · intro rows nums h
    have hf := strictAscB_filter h (fun r => !(nums.contains r.1))
    unfold delete_entry
    rw [sortByNum_eq_of_strict hf]
    exact hf
  · intro lines
    exact ⟨ascB_sortByNum _, ascB_sortByNum _⟩

/--
C3 counterexample: reading a sequential-mode roster text that lists the
number 5 twice in table C1 yields a table that is not strictly ascending —
the duplicate is kept, contradicting the claim for the reading operation.
-/
theorem claim_C3_counterexample :
    strictAscB ((read_tables_from_txt [ [ 'C', '1' ], [ '5' ], [ '5' ] ]).c1) = false := by
  decide

theorem claim_C3_witness :
    strictAscB (update_table_rows [ (5, 1, []) ] [ 7 ] 3 true) = true ∧
    strictAscB (delete_entry [ (5, 1, []), (9, 0, []) ] [ 5 ]) = true :=
  ⟨claim_C3_sort.1 [ (5, 1, []) ] [ 7 ] 3 true,
   claim_C3_sort.2.2.1 [ (5, 1, []), (9, 0, []) ] [ 5 ] (by decide)⟩

/--
C4 (amended): idleCount bound.  Bulk Reconcile under the increment policy
(with a positive threshold) only produces records with idleCount strictly
below the threshold; but the Reader and the freeze policy do not enforce the
bound — they retain whatever idle counts the input carries (see the
counterexample).
-/
theorem claim_C4_bound (rows : List Rec) (obs : List Nat) (maxU : Nat)
    (hpos : 0 < maxU) :
    ∀ p ∈ update_table_rows rows obs maxU true, p.2.1 < maxU := by
  intro p hp
  have hud : update_table_rows rows obs maxU true =
      sortByNum (ofPairs (obs.foldl obsStep
        ((toPairs rows).filterMap (incEntry obs maxU)))) := rfl
  rw [hud, ofPairs_eq] at hp
  have hp2 := mem_sortByNum.mp hp
  have hnd2 : keysNodup (obs.foldl obsStep
      ((toPairs rows).filterMap (incEntry obs maxU))) :=
    keysNodup_obsFold obs (keysNodup_filterMap_inc (keysNodup_toPairs rows))
  have hget : alGet p.1 (obs.foldl obsStep
      ((toPairs rows).filterMap (incEntry obs maxU))) = some p.2 :=
    alGet_of_mem_nodup hnd2 hp2
  by_cases hobs : p.1 ∈ obs
  · have hz := obsFold_get obs hobs ((toPairs rows).filterMap (incEntry obs maxU))
    have heq := hget.symm.trans hz
    have : p.2.1 = 0 := by
      rw [Option.some.injEq] at heq
      rw [heq]
    omega
  · have hd1 : alGet p.1 ((toPairs rows).filterMap (incEntry obs maxU)) = some p.2 :=
      (obsFold_not_mem obs hobs _).symm.trans hget
    have hmem1 : (p.1, p.2) ∈ (toPairs rows).filterMap (incEntry obs maxU) :=
      mem_of_alGet hd1
    exact mem_filterMap_inc_bound hmem1 (contains_false_of_not_mem hobs)

/--
C4 counterexample: reading a roster file whose C1 block contains the line
`5 99` produces the record (5, 99, "") with idleCount 99, far above the
program's threshold of 3 — the reading operation does not enforce the bound.
-/
theorem claim_C4_counterexample :
    (read_tables_from_txt [ [ 'C', '1' ], [ '5', ' ', '9', '9' ] ]).c1 =
      [ (5, 99, []) ] ∧
    ((read_tables_from_txt [ [ 'C', '1' ], [ '5', ' ', '9', '9' ] ]).c1.any
      (fun r => decide (3 ≤ r.2.1))) = true := by
  exact ⟨by decide, by decide⟩

theorem claim_C4_witness :
    (0 < 3 ∧ (7, 0, ([] : Str)) ∈ update_table_rows [ (5, 2, []), (7, 0, []) ] [ 7 ] 3 true) ∧
    ((7, 0, ([] : Str)) : Rec).2.1 < 3 :=
  ⟨⟨by decide, by decide⟩,
   claim_C4_bound [ (5, 2, []), (7, 0, []) ] [ 7 ] 3 (by decide) (7, 0, []) (by decide)⟩

/--
C5: Reset-on-report.  Under either policy, every observed number appears in
the reconcile result with idleCount 0, keeping its prior name when it existed
in the (unique-numbered) table and receiving the empty name otherwise.
-/
theorem claim_C5_reset (rows : List Rec) (obs : List Nat) (maxU : Nat)
    (inc : Bool) (n : Nat) (hnd : keysNodupB rows = true) (hn : n ∈ obs) :
    (∀ u nm, (n, u, nm) ∈ rows → (n, 0, nm) ∈ update_table_rows rows obs maxU inc) ∧
    ((∀ u nm, ¬ (n, u, nm) ∈ rows) → (n, 0, []) ∈ update_table_rows rows obs maxU inc) := by
  have hnd' := keysNodup_of_B hnd
  have hud : update_table_rows rows obs maxU inc =
      sortByNum (ofPairs (obs.foldl obsStep
        (if inc then (toPairs rows).filterMap (incEntry obs maxU)
         else toPairs rows))) := rfl
  constructor
  · intro u nm hmem
    have hget : alGet n (toPairs rows) = some (u, nm) := by
      rw [toPairs_eq_self hnd']
      exact alGet_of_mem_nodup hnd' hmem
    have hd1 : alGet n (if inc then (toPairs rows).filterMap (incEntry obs maxU)
        else toPairs rows) = some (u, nm) := by
      cases inc
      · exact hget
      · have hinc := @alGet_filterMap_inc obs maxU n (toPairs rows) u nm
          (keysNodup_toPairs rows) hget
        rw [if_pos (contains_true_of_mem hn)] at hinc
        exact hinc
    have hz := obsFold_get obs hn (if inc then (toPairs rows).filterMap (incEntry obs maxU)
      else toPairs rows)
    rw [hd1] at hz
    rw [hud, ofPairs_eq]
    exact mem_sortByNum.mpr (mem_of_alGet hz)
  · intro habs
    have hget : alGet n (toPairs rows) = none := by
      rw [toPairs_eq_self hnd']
      apply alGet_eq_none
      intro p hp he
      obtain ⟨p1, pu, pnm⟩ := p
      exact habs pu pnm (by rw [show p1 = n from he] at hp; exact hp)
    have hd1 : alGet n (if inc then (toPairs rows).filterMap (incEntry obs maxU)
        else toPairs rows) = none := by
      cases inc
      · exact hget
      · exact alGet_filterMap_inc_none hget
    have hz := obsFold_get obs hn (if inc then (toPairs rows).filterMap (incEntry obs maxU)
      else toPairs rows)
    rw [hd1] at hz
    rw [hud, ofPairs_eq]
    exact mem_sortByNum.mpr (mem_of_alGet hz)

theorem claim_C5_witness :
    (5, 0, [ 'x' ]) ∈ update_table_rows [ (5, 2, [ 'x' ]) ] [ 5, 9 ] 3 true ∧
    (9, 0, []) ∈ update_table_rows [ (5, 2, [ 'x' ]) ] [ 5, 9 ] 3 true :=
  ⟨(claim_C5_reset [ (5, 2, [ 'x' ]) ] [ 5, 9 ] 3 true 5 (by decide) (by decide)).1
      2 [ 'x' ] (by decide),
   (claim_C5_reset [ (5, 2, [ 'x' ]) ] [ 5, 9 ] 3 true 9 (by decide) (by decide)).2
      (by
        intro u nm h
        have h2 := List.mem_singleton.mp h
        have h3 : (9 : Nat) = 5 := congrArg Prod.fst h2
        exact absurd h3 (by decide))⟩

/--
C6: Freeze-policy idempotence.  Bulk Reconcile with an empty observed set and
`incrementAbsent = false` returns a strictly-sorted table unchanged.
-/
theorem claim_C6_freeze (rows : List Rec) (maxU : Nat)
    (hs : strictAscB rows = true) :
    update_table_rows rows [] maxU false = rows := by
  have hnd : keysNodup rows := keysNodup_of_pairwise_lt (strictAscB_iff_pairwise.mp hs)
  have hud : update_table_rows rows [] maxU false =
      sortByNum (ofPairs (List.foldl obsStep (toPairs rows) [])) := rfl
  rw [hud, show List.foldl obsStep (toPairs rows) [] = toPairs rows from rfl,
    toPairs_eq_self hnd, ofPairs_eq, sortByNum_eq_of_strict hs]

theorem claim_C6_witness :
    update_table_rows [ (3, 1, [ 'a' ]), (8, 2, []) ] [] 3 false =
      [ (3, 1, [ 'a' ]), (8, 2, []) ] :=
  claim_C6_freeze [ (3, 1, [ 'a' ]), (8, 2, []) ] 3 (by decide)

/--
C7: Upsert name preservation.  For a unique-numbered table containing `n` and
a new idleCount strictly below the threshold, Single Upsert replaces the
idleCount and keeps the stored name exactly when the supplied name is empty,
overwriting it otherwise.
-/
theorem claim_C7_upsert (rows : List Rec) (n newU : Nat) (name : Str)
    (maxU u0 : Nat) (nm0 : Str) (hnd : keysNodupB rows = true)
    (hmem : (n, u0, nm0) ∈ rows) (hlt : newU < maxU) :
    (n, newU, if name = [] then nm0 else name) ∈
      set_single_entry rows n newU name maxU := by
  have hnd' := keysNodup_of_B hnd
  have hget : alGet n (toPairs rows) = some (u0, nm0) := by
    rw [toPairs_eq_self hnd']
    exact alGet_of_mem_nodup hnd' hmem
  have hud : set_single_entry rows n newU name maxU =
      sortByNum (ofPairs (if maxU ≤ newU then alErase n (toPairs rows)
        else match alGet n (toPairs rows) with
          | none => alInsert n (newU, name) (toPairs rows)
          | some (_, old_name) =>
            alInsert n (newU, if name = [] then old_name else name)
              (toPairs rows))) := rfl
  rw [hud, if_neg (by omega), hget, ofPairs_eq]
  exact mem_sortByNum.mpr (mem_of_alGet (alGet_alInsert_self n
    (newU, if name = [] then nm0 else name) (toPairs rows)))

theorem claim_C7_witness :
    (5, 1, [ 'a' ]) ∈ set_single_entry [ (5, 2, [ 'a' ]) ] 5 1 [] 3 ∧
    (5, 1, [ 'b' ]) ∈ set_single_entry [ (5, 2, [ 'a' ]) ] 5 1 [ 'b' ] 3 :=
  ⟨claim_C7_upsert [ (5, 2, [ 'a' ]) ] 5 1 [] 3 2 [ 'a' ] (by decide) (by decide)
      (by decide),
   claim_C7_upsert [ (5, 2, [ 'a' ]) ] 5 1 [ 'b' ] 3 2 [ 'a' ] (by decide) (by decide)
      (by decide)⟩

/--
C8: Tokenizer resolution.  The Entry Tokenizer resolves the optional-name /
optional-idle-count ambiguity exactly as specified, stated over the
exception-aware `parse_entry_tokensE`: the four concrete cases of the spec,
plus the general rules — empty input no-match; digit head (the source's
`isdigit` test) with non-digit second token no-match; non-digit head not
followed by a digit token no-match; and a missing idle count defaulting
to 0.  The three no-match rules reach no `int()` call, so they hold for
every token, including non-decimal digit strings such as `"٣٣"`; the
default-0 rules carry the condition that `int` accepts the numeric token
(`pyIntOk`), without which the source raises instead of returning.
-/
theorem claim_C8_tokenizer :
    parse_entry_tokensE [ "张三".data, "15".data, "2".data ] =
      Except.ok (some (15, 2, "张三".data)) ∧
    parse_entry_tokensE [ "15".data, "2".data ] = Except.ok (some (15, 2, [])) ∧
    parse_entry_tokensE [ "15".data ] = Except.ok (some (15, 0, [])) ∧
    parse_entry_tokensE [ "张三".data, "abc".data ] = Except.ok none ∧
    parse_entry_tokensE [] = Except.ok none ∧
    (∀ t0 t1 rest, pyIsDigitStr t0 = true → pyIsDigitStr t1 = false →
      parse_entry_tokensE (t0 :: t1 :: rest) = Except.ok none) ∧
    (∀ t0, pyIsDigitStr t0 = false → parse_entry_tokensE [ t0 ] = Except.ok none) ∧
    (∀ t0 t1 rest, pyIsDigitStr t0 = false → pyIsDigitStr t1 = false →
      parse_entry_tokensE (t0 :: t1 :: rest) = Except.ok none) ∧
    (∀ t0, pyIsDigitStr t0 = true → pyIntOk t0 = true →
      parse_entry_tokensE [ t0 ] = Except.ok (some (strToNat t0, 0, []))) ∧
    (∀ t0 t1, pyIsDigitStr t0 = false → pyIsDigitStr t1 = true → pyIntOk t1 = true →
      parse_entry_tokensE [ t0, t1 ] = Except.ok (some (strToNat t1, 0, t0))) := by
  refine ⟨rfl, rfl, rfl, rfl, rfl, ?_, ?_, ?_, ?_, ?_⟩
  · intro t0 t1 rest h0 h1
    simp [parse_entry_tokensE, h0, h1]
  · intro t0 h0
    simp [parse_entry_tokensE, h0]
  · intro t0 t1 rest h0 h1
    simp [parse_entry_tokensE, h0, h1]
  · intro t0 h0 hk
    simp [parse_entry_tokensE, h0, pyInt_of_ok h0 hk]
  · intro t0 t1 h0 h1 hk
    simp [parse_entry_tokensE, h0, h1, pyInt_of_ok h1 hk]

theorem claim_C8_witness :
    parse_entry_tokensE [ "15".data, "x".data ] = Except.ok none ∧
    parse_entry_tokensE [ "张三".data, "15".data ] =
      Except.ok (some (strToNat ( "15".data), 0, "张三".data)) :=
  ⟨claim_C8_tokenizer.2.2.2.2.2.1 ( "15".data) ( "x".data) [] (by decide) (by decide),
   claim_C8_tokenizer.2.2.2.2.2.2.2.2.2 ( "张三".data) ( "15".data) (by decide) (by decide)
     (by decide)⟩

/--
C9: Tokenizer totality — refuted: the code has a bug.  The claim says the
Entry Tokenizer never raises and rejects unparseable input only through the
no-match variant.  In fact `"²".isdigit()` is true while `int("²")` raises
`ValueError` (U+00B2 has Numeric_Type=Digit but is not a decimal digit), so
`parse_entry_tokens(["²"])` takes the numeric branch and the `int` call
raises; the exception escapes the function.  The same happens with such a
token in the idle-count position after a name.
-/
theorem claim_C9_raises :
    pyIsDigitStr [ '²' ] = true ∧
    pyInt [ '²' ] = none ∧
    parse_entry_tokensE [ [ '²' ] ] = Except.error () ∧
    parse_entry_tokensE [ [ '张' ], [ '²', '²' ] ] = Except.error () :=
  ⟨rfl, rfl, rfl, rfl⟩

/--
C10 (implicit): In side-by-side mode the Reader skips every line whose
stripped content contains the substring `车号` anywhere — including a record
line whose name field contains it — while in sequential-block mode only
lines that start with `车号` are skipped: a record line containing `车号`
elsewhere is parsed normally there.
-/
theorem claim_C10_chehao_skip :
    (∀ (tabs : Tables) (l : Str), hasSub2 '车' '号' (pyStrip l) = true →
      readLineSbs tabs l = tabs) ∧
    (∀ (st : Option TKey × Tables) (l : Str),
      List.isPrefixOf [ '车', '号' ] (pyStrip l) = true → readLineSeq st l = st) ∧
    readLineSbs ⟨[], []⟩ ( "x车号 5 0".data) = ⟨[], []⟩ ∧
    readLineSeq (some TKey.k1, ⟨[], []⟩) ( "x车号 5 0".data) =
      (some TKey.k1, ⟨[ (5, 0, "x车号".data) ], []⟩) := by
  refine ⟨fun tabs l h => readLineSbs_skip_cheHao h tabs, ?_, by decide, by decide⟩
  intro st l h
  obtain ⟨t, ht⟩ := List.isPrefixOf_iff_prefix.mp h
  unfold readLineSeq
  rw [← ht]
  rw [if_neg (by simp), if_neg ?ne1, if_neg ?ne2, if_pos ?pre]
  case ne1 =>
    intro hx
    injection hx with hx1 _
    exact absurd hx1 (by decide)
  case ne2 =>
    intro hx
    injection hx with hx1 _
    exact absurd hx1 (by decide)
  case pre =>
    exact List.isPrefixOf_iff_prefix.mpr ⟨t, rfl⟩

theorem claim_C10_witness :
    readLineSbs ⟨[], []⟩ ( "李四车号 7 1".data) = ⟨[], []⟩ ∧
    readLineSeq (some TKey.k2, ⟨[], []⟩) ( "车号统计表".data) =
      (some TKey.k2, ⟨[], []⟩) :=
  ⟨claim_C10_chehao_skip.1 ⟨[], []⟩ ( "李四车号 7 1".data) (by decide),
   claim_C10_chehao_skip.2.1 (some TKey.k2, ⟨[], []⟩) ( "车号统计表".data) (by decide)⟩
